import Mathlib

/-!
Shallow embedding of the PassGen credential-generation toolkit: the generator
module (`getSecureRandomInt`, `secureShuffleArray`, `generatePassword`,
`generatePIN`, `generatePassphrase`, `toCSV`) and the strength analyzer
(`calculatePoolSize`, `calculateEntropy`, `getStrengthLevel`).

Randomness is modelled as an infinite stream `s : ℕ → ℕ` of raw 32-bit draws
(each draw is read mod 2^32, matching `crypto.getRandomValues` on a
`Uint32Array`) together with a cursor `k`.  The rejection loop inside
`getSecureRandomInt` is given explicit fuel so that every definition is a
computable structural recursion; a run whose rejection loop would spin past
the fuel is represented by `none`.  Strings are modelled as `List Char`.
-/

namespace PassGen

/-- Character set `CHARS.uppercase` from the source. -/
def UPPERCASE : List Char :=
  ['A','B','C','D','E','F','G','H','I','J','K','L','M',
   'N','O','P','Q','R','S','T','U','V','W','X','Y','Z']

/-- Character set `CHARS.lowercase` from the source. -/
def LOWERCASE : List Char :=
  ['a','b','c','d','e','f','g','h','i','j','k','l','m',
   'n','o','p','q','r','s','t','u','v','w','x','y','z']

/-- Character set `CHARS.numbers` from the source. -/
def NUMBERS : List Char :=
  ['0','1','2','3','4','5','6','7','8','9']

/-- Character set `CHARS.symbols` from the source. -/
def SYMBOLS : List Char :=
  ['!','@','#','$','%','^','&','*','(',')','_','+','-','=',
   '[',']','{','}','|',';',':',',','.','<','>','?']

/-- Character set `CHARS.ambiguous` from the source (`0O1lI|`). -/
def AMBIGUOUS : List Char := ['0','O','1','l','I','|']

/-- Character set `CHARS.brackets` from the source. -/
def BRACKETS : List Char := ['{','}','[',']','(',')','\\','/','\'','"']

/-- Helper `removeChars(str, charsToRemove)` from the source: keep the
characters of `str` that do not occur in `charsToRemove`. -/
def removeChars (str charsToRemove : List Char) : List Char :=
  str.filter (fun c => ¬ charsToRemove.contains c)

/-- Cardinality of the 32-bit draw space, `2^32`. -/
def UINT32 : ℕ := 4294967296

/-- The constant `maxUint32 = 0xFFFFFFFF` from `getSecureRandomInt`. -/
def MAXUINT32 : ℕ := 4294967295

/-- Rejection threshold actually computed by `getSecureRandomInt`:
`limit = maxUint32 - (maxUint32 % max)`. -/
def codeLimit (m : ℕ) : ℕ := MAXUINT32 - MAXUINT32 % m

/-- Modelled from the spec: the rejection threshold §4.1 prescribes,
`limit = 2^32 - (2^32 mod exclusiveMax)`; kept only for comparison with
`codeLimit` — it is not what the source computes. -/
def specLimit (m : ℕ) : ℕ := UINT32 - UINT32 % m

/-- The `do { crypto.getRandomValues(array) } while (array[0] >= limit)` loop
of `getSecureRandomInt`: draw `s k` (a 32-bit value), redraw while the value
is at least `limit`.  Returns the accepted value and the next cursor. -/
def rsiLoop (limit : ℕ) (s : ℕ → ℕ) : ℕ → ℕ → Option (ℕ × ℕ)
  | _, 0 => none
  | k, fuel + 1 =>
    if limit ≤ s k % UINT32 then rsiLoop limit s (k + 1) fuel
    else some (s k % UINT32, k + 1)

/-- Embedding of `getSecureRandomInt(max)`: `max <= 0` returns 0 without
drawing; otherwise rejection-sample a 32-bit value below `codeLimit` and
return it mod `max`. -/
def getSecureRandomInt (max : ℤ) (s : ℕ → ℕ) (fuel k : ℕ) : Option (ℕ × ℕ) :=
  if max ≤ 0 then some (0, k)
  else
    match rsiLoop (codeLimit max.toNat) s k fuel with
    | none => none
    | some (v, kk) => some (v % max.toNat, kk)

/-- Modelled from the spec: the rejection sampler exactly as §4.1 words it,
with `specLimit` in place of the implemented `codeLimit`.  Used only to
exhibit the difference between the spec formula and the implementation. -/
def getSecureRandomIntSpec (max : ℤ) (s : ℕ → ℕ) (fuel k : ℕ) :
    Option (ℕ × ℕ) :=
  if max ≤ 0 then some (0, k)
  else
    match rsiLoop (specLimit max.toNat) s k fuel with
    | none => none
    | some (v, kk) => some (v % max.toNat, kk)

/-- Swap the entries at positions `i` and `j` of a list, the JS destructuring
swap `[a[i], a[j]] = [a[j], a[i]]`; `d` is a default for out-of-range reads
(never used at the call sites, where both indices are in range). -/
def swapList (d : α) (l : List α) (i j : ℕ) : List α :=
  (l.set i (l.getD j d)).set j (l.getD i d)

/-- The Fisher–Yates loop of `secureShuffleArray`: the first argument is the
current JS loop index `i` (counting down to 1); each step draws
`j = getSecureRandomInt(i + 1)` and swaps positions `i` and `j`. -/
def fyLoop (s : ℕ → ℕ) (fuel : ℕ) (d : α) :
    ℕ → List α → ℕ → Option (List α × ℕ)
  | 0, l, k => some (l, k)
  | i + 1, l, k =>
    match getSecureRandomInt ((i : ℤ) + 2) s fuel k with
    | none => none
    | some (j, kk) => fyLoop s fuel d i (swapList d l (i + 1) j) kk

/-- Embedding of `secureShuffleArray`: Fisher–Yates from index
`length - 1` down to 1 with secure draws. -/
def secureShuffleArray (s : ℕ → ℕ) (fuel : ℕ) (d : α) (l : List α) (k : ℕ) :
    Option (List α × ℕ) :=
  fyLoop s fuel d (l.length - 1) l k

/-- Stream whose every 32-bit draw is the value 4294967294 (= 2^32 - 2). -/
def high32Stream : ℕ → ℕ := fun _ => 4294967294

/- Characterization of the rejection loop: a successful run advances the
cursor, every draw before the last was rejected (≥ limit), and the last draw
was accepted (< limit) and returned. -/
theorem rsiLoop_some (limit : ℕ) (s : ℕ → ℕ) :
    ∀ fuel k v kk, rsiLoop limit s k fuel = some (v, kk) →
      k < kk ∧ v = s (kk - 1) % UINT32 ∧ v < limit ∧
      ∀ i, k ≤ i → i < kk - 1 → limit ≤ s i % UINT32 := by
  intro fuel
  induction fuel with
  | zero => intro k v kk h; simp [rsiLoop] at h
  | succ n ih =>
    intro k v kk h
    simp only [rsiLoop] at h
    by_cases hrej : limit ≤ s k % UINT32
    · rw [if_pos hrej] at h
      obtain ⟨h1, h2, h3, h4⟩ := ih (k + 1) v kk h
      refine ⟨by omega, h2, h3, ?_⟩
      intro i hi1 hi2
      rcases Nat.eq_or_lt_of_le hi1 with rfl | hlt
      · exact hrej
      · exact h4 i hlt hi2
    · rw [if_neg hrej] at h
      obtain ⟨rfl, rfl⟩ : s k % UINT32 = v ∧ k + 1 = kk := by
        simpa using h
      exact ⟨by omega, by simp, by omega, by omega⟩

/-- A successful draw is always below `max` (for positive `max`). -/
theorem getSecureRandomInt_lt (max : ℤ) (s : ℕ → ℕ) (fuel k : ℕ)
    (hmax : 1 ≤ max) :
    ∀ v kk, getSecureRandomInt max s fuel k = some (v, kk) → v < max.toNat := by
  intro v kk h
  unfold getSecureRandomInt at h
  rw [if_neg (by omega)] at h
  cases hr : rsiLoop (codeLimit max.toNat) s k fuel with
  | none => rw [hr] at h; simp at h
  | some p =>
    rw [hr] at h
    obtain ⟨rfl, rfl⟩ : p.1 % max.toNat = v ∧ p.2 = kk := by
      cases p; simpa using h
    exact Nat.mod_lt _ (by omega)

/-- The cursor never moves backwards on a successful draw. -/
theorem getSecureRandomInt_cursor (max : ℤ) (s : ℕ → ℕ) (fuel k : ℕ) :
    ∀ v kk, getSecureRandomInt max s fuel k = some (v, kk) → k ≤ kk := by
  intro v kk h
  unfold getSecureRandomInt at h
  by_cases hmax : max ≤ 0
  · rw [if_pos hmax] at h
    obtain ⟨-, rfl⟩ : 0 = v ∧ k = kk := by simpa using h
    exact le_refl _
  · rw [if_neg hmax] at h
    cases hr : rsiLoop (codeLimit max.toNat) s k fuel with
    | none => rw [hr] at h; simp at h
    | some p =>
      rw [hr] at h
      obtain ⟨-, rfl⟩ : p.1 % max.toNat = v ∧ p.2 = kk := by
        cases p; simpa using h
      obtain ⟨h1, -, -, -⟩ := rsiLoop_some _ s fuel k p.1 p.2 hr
      omega

/-- C2 (amended): `getSecureRandomInt` is a rejection sampler, but its
threshold is `codeLimit max = (2^32 - 1) - ((2^32 - 1) mod max)`, not the
`2^32`-based limit of the claim.  For `max ≤ 0` it returns 0 without
drawing; for `max ≥ 1` every successful run consists of rejected draws
(all ≥ `codeLimit max`), then one accepted draw `< codeLimit max`, and the
result is that accepted value mod `max`. -/
theorem claim2_rejection_sampler (max : ℤ) (s : ℕ → ℕ) (fuel k : ℕ) :
    (max ≤ 0 → getSecureRandomInt max s fuel k = some (0, k)) ∧
    (1 ≤ max → ∀ v kk, getSecureRandomInt max s fuel k = some (v, kk) →
      k < kk ∧
      s (kk - 1) % UINT32 < codeLimit max.toNat ∧
      (∀ i, k ≤ i → i < kk - 1 → codeLimit max.toNat ≤ s i % UINT32) ∧
      v = s (kk - 1) % UINT32 % max.toNat ∧
      codeLimit max.toNat = (2 ^ 32 - 1) - (2 ^ 32 - 1) % max.toNat) := by
  constructor
  · intro hle
    unfold getSecureRandomInt
    rw [if_pos hle]
  · intro hge v kk h
    unfold getSecureRandomInt at h
    rw [if_neg (by omega)] at h
    cases hr : rsiLoop (codeLimit max.toNat) s k fuel with
    | none => rw [hr] at h; simp at h
    | some p =>
      rw [hr] at h
      obtain ⟨rfl, rfl⟩ : p.1 % max.toNat = v ∧ p.2 = kk := by
        cases p; simpa using h
      obtain ⟨h1, h2, h3, h4⟩ := rsiLoop_some _ s fuel k p.1 p.2 hr
      refine ⟨h1, by rw [← h2]; exact h3, h4, by rw [h2], ?_⟩
      show codeLimit max.toNat = 4294967295 - 4294967295 % max.toNat
      rfl

/-- Witness for C2 at `max = 3` with the all-zero stream: the first draw (0)
is below the limit, is accepted, and `0 mod 3 = 0` is returned with the
cursor advanced to 1. -/
theorem claim2_rejection_sampler_witness :
    (0 : ℕ) < 1 ∧
    (fun _ => 0 : ℕ → ℕ) 0 % UINT32 < codeLimit (3 : ℤ).toNat ∧
    (0 : ℕ) = (fun _ => 0 : ℕ → ℕ) 0 % UINT32 % (3 : ℤ).toNat := by
  have h := (claim2_rejection_sampler 3 (fun _ => 0) 1 0).2 (by decide) 0 1
    (by decide)
  exact ⟨h.1, h.2.1, h.2.2.2.1⟩

/-- C2 counterexample: at `exclusiveMax = 2` the drawn 32-bit value
4294967294 lies below the limit stated by the claim
(`2^32 - (2^32 mod 2) = 2^32`), so by the claim it must be accepted at once
and `4294967294 mod 2 = 0` returned after a single draw — the spec-faithful
sampler does exactly that.  The implementation instead computes limit
4294967294, rejects the draw, and keeps redrawing (no fuel suffices:
shown here for budgets of 1 and 5 draws). -/
theorem claim2_counterexample :
    getSecureRandomIntSpec 2 high32Stream 1 0 = some (0, 1) ∧
    getSecureRandomInt 2 high32Stream 1 0 = none ∧
    getSecureRandomInt 2 high32Stream 5 0 = none := by decide

/- Counting lemma behind exact uniformity: among the naturals below `m * q`,
exactly `q` of them have a given residue `r < m` mod `m`. -/
theorem count_mod_range (m : ℕ) (r : ℕ) (hr : r < m) :
    ∀ q, ((Finset.range (m * q)).filter (fun v => v % m = r)).card = q := by
  intro q
  induction q with
  | zero => simp
  | succ n ih =>
    have hsplit : Finset.range (m * (n + 1)) =
        Finset.range (m * n) ∪ Finset.Ico (m * n) (m * n + m) := by
      rw [Finset.range_eq_Ico,
        Finset.Ico_union_Ico_eq_Ico (Nat.zero_le _) (Nat.le_add_right _ _)]
      rw [Nat.mul_succ]
    have hdisj : Disjoint (Finset.range (m * n)) (Finset.Ico (m * n) (m * n + m)) := by
      rw [Finset.disjoint_left]
      intro a ha hb
      rw [Finset.mem_range] at ha
      rw [Finset.mem_Ico] at hb
      omega
    have hsing : (Finset.Ico (m * n) (m * n + m)).filter (fun v => v % m = r) =
        {m * n + r} := by
      ext v
      simp only [Finset.mem_filter, Finset.mem_Ico, Finset.mem_singleton]
      constructor
      · rintro ⟨⟨hv1, hv2⟩, hv3⟩
        have hv : v = m * n + (v - m * n) := by omega
        have ht : v - m * n < m := by omega
        rw [hv, Nat.mul_add_mod, Nat.mod_eq_of_lt ht] at hv3
        omega
      · rintro rfl
        refine ⟨⟨by omega, by omega⟩, ?_⟩
        rw [Nat.mul_add_mod, Nat.mod_eq_of_lt hr]
    rw [hsplit, Finset.filter_union,
      Finset.card_union_of_disjoint (Finset.disjoint_filter_filter hdisj), ih,
      hsing]
    simp

/-- C10: for every `1 ≤ max ≤ 2^32 - 1` the threshold actually computed by
`getSecureRandomInt`, `codeLimit max = (2^32 - 1) - ((2^32 - 1) mod max)`,
is a positive exact multiple of `max`; consequently, among the accepted
32-bit values (those `< codeLimit max`), every residue `r < max` occurs
exactly `codeLimit max / max` times, so `value mod max` is exactly uniform
over `[0, max)` conditioned on acceptance. -/
theorem claim10_limit_exactly_unbiased (m : ℕ) (h1 : 1 ≤ m)
    (h2 : m ≤ 2 ^ 32 - 1) :
    codeLimit m = (2 ^ 32 - 1) - (2 ^ 32 - 1) % m ∧
    0 < codeLimit m ∧
    codeLimit m % m = 0 ∧
    ∀ r, r < m →
      ((Finset.range (codeLimit m)).filter (fun v => v % m = r)).card =
        codeLimit m / m := by
  have hm : m ≤ MAXUINT32 := by
    have : (2 : ℕ) ^ 32 - 1 = MAXUINT32 := by norm_num [MAXUINT32]
    omega
  have hkey : codeLimit m = m * (MAXUINT32 / m) := by
    have := Nat.div_add_mod MAXUINT32 m
    unfold codeLimit
    omega
  have hq : 1 ≤ MAXUINT32 / m := (Nat.one_le_div_iff (by omega)).mpr hm
  refine ⟨rfl, ?_, ?_, ?_⟩
  · rw [hkey]
    exact Nat.mul_pos (by omega) (by omega)
  · rw [hkey]
    exact Nat.mul_mod_right _ _
  · intro r hr
    rw [hkey, Nat.mul_div_cancel_left _ (by omega : 0 < m)]
    exact count_mod_range m r hr _

/-- Witness for C10 at `max = 3`: the computed limit is positive, an exact
multiple of 3, and residue 1 occurs exactly `limit / 3` times below it. -/
theorem claim10_limit_exactly_unbiased_witness :
    0 < codeLimit 3 ∧ codeLimit 3 % 3 = 0 ∧
    ((Finset.range (codeLimit 3)).filter (fun v => v % 3 = 1)).card =
      codeLimit 3 / 3 := by
  have h := claim10_limit_exactly_unbiased 3 (by decide) (by decide)
  exact ⟨h.2.1, h.2.2.1, h.2.2.2 1 (by decide)⟩

/-- Options of `generatePIN` (defaults in the source: length 4, both flags
false). -/
structure PinOpts where
  length : ℕ
  noRepeatedDigits : Bool
  noSequentialDigits : Bool

/-- Sequential-run check of `generatePIN`: candidate digit `d` is rejected
iff the buffer has at least two digits, `|d - last| = 1`, and
`(prev, last, d)` steps by `+1, +1` or `-1, -1`. -/
def seqReject (pin : List ℕ) (d : ℕ) : Bool :=
  if 0 < pin.length then
    if ((d : ℤ) - (pin.getD (pin.length - 1) 0 : ℕ)).natAbs = 1 then
      if 2 ≤ pin.length then
        decide ((((pin.getD (pin.length - 1) 0 : ℕ) : ℤ) -
                  (pin.getD (pin.length - 2) 0 : ℕ) = 1 ∧
                 (d : ℤ) - (pin.getD (pin.length - 1) 0 : ℕ) = 1) ∨
                (((pin.getD (pin.length - 1) 0 : ℕ) : ℤ) -
                  (pin.getD (pin.length - 2) 0 : ℕ) = -1 ∧
                 (d : ℤ) - (pin.getD (pin.length - 1) 0 : ℕ) = -1))
      else false
    else false
  else false

/-- The accept/reject while-loop of `generatePIN`: draw a digit 0–9, reject
(incrementing `attempts`) on a repeat when `noRepeatedDigits` or on a 3-run
when `noSequentialDigits`, append and reset `attempts` on acceptance; the
loop runs while the buffer is short of `opts.length` and `attempts < 1000`.
The first numeric argument is structural fuel for the loop iterations;
exhausting it (or the draw fuel) yields `none`, representing a run that did
not finish within those resources. -/
def pinLoop (opts : PinOpts) (s : ℕ → ℕ) (fuel : ℕ) :
    ℕ → List ℕ → ℕ → ℕ → Option (List ℕ × ℕ)
  | 0, _, _, _ => none
  | itFuel + 1, pin, attempts, k =>
    if pin.length < opts.length ∧ attempts < 1000 then
      match getSecureRandomInt 10 s fuel k with
      | none => none
      | some (d, kk) =>
        if opts.noRepeatedDigits ∧ d ∈ pin then
          pinLoop opts s fuel itFuel pin (attempts + 1) kk
        else if opts.noSequentialDigits ∧ seqReject pin d then
          pinLoop opts s fuel itFuel pin (attempts + 1) kk
        else
          pinLoop opts s fuel itFuel (pin ++ [d]) 0 kk
    else some (pin, k)

/-- Embedding of `generatePIN`: run the loop from an empty buffer; if the
buffer is still short of the requested length, regenerate the whole PIN with
`noSequentialDigits` relaxed to false — the source recurses here, so the
recursion depth gets its own fuel `recFuel` and `none` means the recursion
never produced a PIN within that depth. -/
def generatePINAux (s : ℕ → ℕ) (fuel itFuel : ℕ) :
    ℕ → PinOpts → ℕ → Option (List ℕ × ℕ)
  | 0, _, _ => none
  | recFuel + 1, opts, k =>
    match pinLoop opts s fuel itFuel [] 0 k with
    | none => none
    | some (pin, kk) =>
      if pin.length < opts.length then
        generatePINAux s fuel itFuel recFuel
          ⟨opts.length, opts.noRepeatedDigits, false⟩ kk
      else some (pin, kk)

/- Under `noRepeatedDigits` the loop preserves distinctness and the digit
bound of the buffer. -/
theorem pinLoop_nodup (opts : PinOpts) (s : ℕ → ℕ) (fuel : ℕ)
    (hrep : opts.noRepeatedDigits = true) :
    ∀ itFuel pin attempts k pin' kk,
      pinLoop opts s fuel itFuel pin attempts k = some (pin', kk) →
      pin.Nodup → (∀ d ∈ pin, d < 10) →
      pin'.Nodup ∧ ∀ d ∈ pin', d < 10 := by
  intro itFuel
  induction itFuel with
  | zero => intro pin attempts k pin' kk h; simp [pinLoop] at h
  | succ n ih =>
    intro pin attempts k pin' kk h hnd hlt
    simp only [pinLoop] at h
    by_cases hg : pin.length < opts.length ∧ attempts < 1000
    · rw [if_pos hg] at h
      cases hd : getSecureRandomInt 10 s fuel k with
      | none => rw [hd] at h; simp at h
      | some p =>
        rw [hd] at h
        obtain ⟨d, kk0⟩ := p
        dsimp only at h
        have hd10 : d < 10 := by
          have := getSecureRandomInt_lt 10 s fuel k (by decide) d kk0 hd
          simpa using this
        by_cases h1 : opts.noRepeatedDigits ∧ d ∈ pin
        · rw [if_pos h1] at h
          exact ih pin (attempts + 1) kk0 pin' kk h hnd hlt
        · rw [if_neg h1] at h
          by_cases h2 : opts.noSequentialDigits ∧ seqReject pin d
          · rw [if_pos h2] at h
            exact ih pin (attempts + 1) kk0 pin' kk h hnd hlt
          · rw [if_neg h2] at h
            have hdnot : d ∉ pin := by
              intro hmem
              exact h1 ⟨hrep, hmem⟩
            refine ih (pin ++ [d]) 0 kk0 pin' kk h ?_ ?_
            · rw [← List.concat_eq_append]
              exact List.Nodup.concat hdnot hnd
            · intro e he
              rcases List.mem_append.mp he with he1 | he2
              · exact hlt e he1
              · rw [List.mem_singleton] at he2
                omega
    · rw [if_neg hg] at h
      obtain ⟨rfl, rfl⟩ : pin = pin' ∧ k = kk := by simpa using h
      exact ⟨hnd, hlt⟩

/- A duplicate-free list of digits has at most 10 entries. -/
theorem nodup_digits_length_le (pin : List ℕ) (h1 : pin.Nodup)
    (h2 : ∀ d ∈ pin, d < 10) : pin.length ≤ 10 := by
  have hsub : pin.toFinset ⊆ Finset.range 10 := by
    intro d hd
    rw [List.mem_toFinset] at hd
    rw [Finset.mem_range]
    exact h2 d hd
  have hcard := Finset.card_le_card hsub
  rw [List.toFinset_card_of_nodup h1] at hcard
  simpa using hcard

/-- C1 (code bug): for the in-range PIN configuration `length = 11` (the
documented range is 4–12) with `noRepeatedDigits` set, `generatePIN` never
terminates: only 10 distinct digits exist, so every pass of the loop stops
with at most 10 digits, the buffer is short, and the fallback — which only
clears `noSequentialDigits`, leaving `noRepeatedDigits` intact — re-enters
the same situation; the source recurses unboundedly.  Formally: no draw
fuel, loop fuel and recursion depth make the embedding return a result. -/
theorem claim1_pin_unbounded_recursion (b : Bool) (s : ℕ → ℕ)
    (fuel itFuel recFuel k : ℕ) :
    generatePINAux s fuel itFuel recFuel ⟨11, true, b⟩ k = none := by
  induction recFuel generalizing b k with
  | zero => rfl
  | succ n ih =>
    simp only [generatePINAux]
    cases hp : pinLoop ⟨11, true, b⟩ s fuel itFuel [] 0 k with
    | none => rfl
    | some p =>
      obtain ⟨pin, kk⟩ := p
      obtain ⟨hn, hd⟩ := pinLoop_nodup ⟨11, true, b⟩ s fuel rfl itFuel
        [] 0 k pin kk (by rw [hp]) List.nodup_nil (by intro d hd; simp at hd)
      have hlen : pin.length ≤ 10 := nodup_digits_length_le pin hn hd
      dsimp only
      rw [if_pos (by omega : pin.length < (11 : ℕ))]
      exact ih false kk

/-- Test of the regex `/[a-z]/` used by `calculatePoolSize`. -/
def isLowerAlpha (c : Char) : Bool := decide ('a' ≤ c) && decide (c ≤ 'z')

/-- Test of the regex `/[A-Z]/` used by `calculatePoolSize`. -/
def isUpperAlpha (c : Char) : Bool := decide ('A' ≤ c) && decide (c ≤ 'Z')

/-- Test of the regex `/[0-9]/` used by `calculatePoolSize`. -/
def isDigitChar (c : Char) : Bool := decide ('0' ≤ c) && decide (c ≤ '9')

/-- Fallthrough class of `calculatePoolSize`: a character matching none of
the three regexes counts as a symbol. -/
def isOtherSymbol (c : Char) : Bool :=
  !(isLowerAlpha c || isUpperAlpha c || isDigitChar c)

/-- Embedding of `calculatePoolSize` (strength.js): sum the nominal sizes
(26/26/10/32) of the character classes present in the credential, with
`poolSize || 1` as a floor.  The source classifies each character with an
else-if chain; the three regex classes are mutually exclusive, so per-class
`any` is the same classification. -/
def calculatePoolSize (password : List Char) : ℕ :=
  let poolSize :=
    (if password.any isLowerAlpha then 26 else 0) +
    (if password.any isUpperAlpha then 26 else 0) +
    (if password.any isDigitChar then 10 else 0) +
    (if password.any isOtherSymbol then 32 else 0)
  if poolSize = 0 then 1 else poolSize

/-- Embedding of `calculateEntropy` (strength.js):
`Math.round(length * Math.log2(poolSize) * 10) / 10`, 0 for the empty
credential.  The double-precision `Math.log2` is modelled by the exact real
logarithm; the result is the one-decimal rational the source displays. -/
noncomputable def calculateEntropy (password : List Char) : ℚ :=
  if password.length = 0 then 0
  else
    ((round ((password.length : ℝ) *
        Real.logb 2 (calculatePoolSize password) * 10) : ℤ) : ℚ) / 10

/-- The five strength levels of `LEVELS` (strength.js), in order. -/
inductive StrengthLevel
  | weak
  | fair
  | good
  | strong
  | veryStrong
deriving DecidableEq

/-- Position of a level in the total order Weak < Fair < Good < Strong <
VeryStrong. -/
def levelRank : StrengthLevel → ℕ
  | .weak => 0
  | .fair => 1
  | .good => 2
  | .strong => 3
  | .veryStrong => 4

/-- Embedding of `getStrengthLevel` (strength.js): descending threshold
chain over `minEntropy` 90/70/50/30 (the canonical table the claims cite). -/
def getStrengthLevel (entropy : ℚ) : StrengthLevel :=
  if 90 ≤ entropy then .veryStrong
  else if 70 ≤ entropy then .strong
  else if 50 ≤ entropy then .good
  else if 30 ≤ entropy then .fair
  else .weak

/-- C9: `getStrengthLevel` is monotone — a larger entropy never maps to a
smaller level in the order Weak < Fair < Good < Strong < VeryStrong — and it
attains all 5 levels. -/
theorem claim9_level_monotone :
    (∀ e1 e2 : ℚ, e1 ≤ e2 →
      levelRank (getStrengthLevel e1) ≤ levelRank (getStrengthLevel e2)) ∧
    (∀ l : StrengthLevel, ∃ e : ℚ, getStrengthLevel e = l) := by
  constructor
  · intro e1 e2 h
    unfold getStrengthLevel
    split_ifs <;> simp [levelRank] <;> linarith
  · intro l
    cases l
    · exact ⟨0, by norm_num [getStrengthLevel]⟩
    · exact ⟨30, by norm_num [getStrengthLevel]⟩
    · exact ⟨50, by norm_num [getStrengthLevel]⟩
    · exact ⟨70, by norm_num [getStrengthLevel]⟩
    · exact ⟨90, by norm_num [getStrengthLevel]⟩

/-- Witness for C9 at the pair (20, 60). -/
theorem claim9_level_monotone_witness :
    levelRank (getStrengthLevel 20) ≤ levelRank (getStrengthLevel 60) :=
  claim9_level_monotone.1 20 60 (by decide)

/- Rational bounds on `log2 94`, from `2^2097 ≤ 94^320 < 2^2099`. -/
theorem logb_two_of_94_bounds :
    (2097 : ℝ) / 320 ≤ Real.logb 2 94 ∧ Real.logb 2 94 < 2099 / 320 := by
  have h2 : (0 : ℝ) < Real.log 2 := Real.log_pos (by norm_num)
  have hlow : (2 : ℝ) ^ (2097 : ℕ) ≤ 94 ^ (320 : ℕ) := by norm_num
  have hhigh : (94 : ℝ) ^ (320 : ℕ) < 2 ^ (2099 : ℕ) := by norm_num
  have hloglow : (2097 : ℝ) * Real.log 2 ≤ 320 * Real.log 94 := by
    have := (Real.log_le_log_iff (by positivity) (by positivity)).mpr hlow
    rw [Real.log_pow, Real.log_pow] at this
    push_cast at this
    linarith
  have hloghigh : (320 : ℝ) * Real.log 94 < 2099 * Real.log 2 := by
    have := (Real.log_lt_log_iff (by positivity) (by positivity)).mpr hhigh
    rw [Real.log_pow, Real.log_pow] at this
    push_cast at this
    linarith
  constructor
  · rw [← Real.log_div_log]
    rw [div_le_div_iff₀ (by norm_num) h2]
    linarith
  · rw [← Real.log_div_log]
    rw [div_lt_div_iff₀ h2 (by norm_num)]
    linarith

/- The rounded tenth-of-a-bit value of `16 * log2 94 * 10`. -/
theorem round_sixteen_logb_94 : round ((16 : ℝ) * Real.logb 2 94 * 10) = 1049 := by
  obtain ⟨hl, hh⟩ := logb_two_of_94_bounds
  rw [round_eq]
  rw [Int.floor_eq_iff]
  constructor
  · push_cast
    linarith
  · push_cast
    linarith

/-- C6: for every non-empty credential, `calculateEntropy` is the length
times `log2` of the summed nominal class sizes (26/26/10/32, floored at 1),
rounded to one decimal; in particular every 16-character credential
containing all four classes (pool 94) gets entropy 104.9 bits and level
VeryStrong. -/
theorem claim6_entropy_formula (pwd : List Char) (hne : pwd.length ≠ 0) :
    calculateEntropy pwd =
      ((round ((pwd.length : ℝ) *
          Real.logb 2 (calculatePoolSize pwd) * 10) : ℤ) : ℚ) / 10 ∧
    (pwd.length = 16 →
     pwd.any isLowerAlpha = true → pwd.any isUpperAlpha = true →
     pwd.any isDigitChar = true → pwd.any isOtherSymbol = true →
     calculateEntropy pwd = 1049 / 10 ∧
     getStrengthLevel (calculateEntropy pwd) = StrengthLevel.veryStrong) := by
  have hbase : calculateEntropy pwd =
      ((round ((pwd.length : ℝ) *
          Real.logb 2 (calculatePoolSize pwd) * 10) : ℤ) : ℚ) / 10 := by
    unfold calculateEntropy
    rw [if_neg hne]
  refine ⟨hbase, ?_⟩
  intro h16 h1 h2 h3 h4
  have hpool : calculatePoolSize pwd = 94 := by
    unfold calculatePoolSize
    rw [h1, h2, h3, h4]
    norm_num
  have hval : calculateEntropy pwd = 1049 / 10 := by
    rw [hbase, hpool, h16]
    norm_num
    rw [round_sixteen_logb_94]
    norm_num
  refine ⟨hval, ?_⟩
  rw [hval]
  unfold getStrengthLevel
  norm_num

/-- Sample credential used by the C6 witness: 16 characters, all four
classes present. -/
def pwdSixteen : List Char :=
  ['a','A','0','!','a','A','0','!','a','A','0','!','a','A','0','!']

/-- Witness for C6 at a concrete 16-character, four-class credential. -/
theorem claim6_entropy_formula_witness :
    calculateEntropy pwdSixteen = 1049 / 10 ∧
    getStrengthLevel (calculateEntropy pwdSixteen) = StrengthLevel.veryStrong :=
  (claim6_entropy_formula pwdSixteen (by decide)).2 (by decide) (by decide)
    (by decide) (by decide) (by decide)

/-- Options of `generatePassword` (defaults in the source: length 16, all
four classes on, no exclusions, no minimums, no positional flags).
`customSymbols` is `none` for the JS `null`. -/
structure PwOpts where
  length : ℕ
  uppercase : Bool
  lowercase : Bool
  numbers : Bool
  symbols : Bool
  excludeAmbiguous : Bool
  excludeBrackets : Bool
  customSymbols : Option (List Char)
  minNumbers : ℕ
  minSymbols : ℕ
  beginWithLetter : Bool
  noRepeating : Bool

/-- Uppercase class after the `excludeAmbiguous` filter. -/
def upClass (o : PwOpts) : List Char :=
  if o.excludeAmbiguous then removeChars UPPERCASE AMBIGUOUS else UPPERCASE

/-- Lowercase class after the `excludeAmbiguous` filter. -/
def lowClass (o : PwOpts) : List Char :=
  if o.excludeAmbiguous then removeChars LOWERCASE AMBIGUOUS else LOWERCASE

/-- Numbers class after the `excludeAmbiguous` filter. -/
def numClass (o : PwOpts) : List Char :=
  if o.excludeAmbiguous then removeChars NUMBERS AMBIGUOUS else NUMBERS

/-- The JS truthiness fallback `opts.customSymbols || CHARS.symbols`: a
missing or empty custom string falls back to the default symbols. -/
def symBase (o : PwOpts) : List Char :=
  match o.customSymbols with
  | some (c :: cs) => c :: cs
  | _ => SYMBOLS

/-- Symbols class after the `excludeBrackets` filter (note: the source never
filters this class by `excludeAmbiguous`). -/
def symClass (o : PwOpts) : List Char :=
  if o.excludeBrackets then removeChars (symBase o) BRACKETS else symBase o

/-- The concatenated `charPool` before the empty-pool fallback. -/
def rawPool (o : PwOpts) : List Char :=
  (if o.uppercase then upClass o else []) ++
  (if o.lowercase then lowClass o else []) ++
  (if o.numbers then numClass o else []) ++
  (if o.symbols then symClass o else [])

/-- The `charPool` after the all-classes-disabled fallback to (unfiltered)
lowercase. -/
def charPool (o : PwOpts) : List Char :=
  if (rawPool o).length = 0 then LOWERCASE else rawPool o

/-- Letters-only sub-pool built inside the `beginWithLetter` branch (same
filtered classes as the pool assembly). -/
def letterPool (o : PwOpts) : List Char :=
  (if o.uppercase then upClass o else []) ++
  (if o.lowercase then lowClass o else [])

/-- Requested length after the `noRepeating` clamp: when the request exceeds
the pool size the source silently sets `opts.length = charPool.length`. -/
def targetLen (o : PwOpts) : ℕ :=
  if o.noRepeating ∧ (charPool o).length < o.length then (charPool o).length
  else o.length

/-- The `for (let i = 0; i < opts.minNumbers; i++)` style loops that
pre-draw required characters: each draw indexes the filtered class string.
Indexing an empty class yields JS `undefined`, modelled as `none`. -/
def drawRequired (cls : List Char) (s : ℕ → ℕ) (fuel : ℕ) :
    ℕ → ℕ → Option (List (Option Char) × ℕ)
  | 0, k => some ([], k)
  | n + 1, k =>
    match getSecureRandomInt (cls.length : ℤ) s fuel k with
    | none => none
    | some (i, kk) =>
      match drawRequired cls s fuel n kk with
      | none => none
      | some (rest, kf) => some (cls.get? i :: rest, kf)

/-- The required-character placement loop (step 3 of the generator): append
each pre-drawn entry while the buffer is short of the target, skipping
entries already used under `noRepeating` and recording placed entries in
`used` (the JS `usedChars` set, which can also hold `undefined`). -/
def placeRequired (noRep : Bool) (target : ℕ) :
    List (Option Char) → List (Option Char) → List (Option Char) →
    List (Option Char) × List (Option Char)
  | [], pwd, used => (pwd, used)
  | c :: rest, pwd, used =>
    if pwd.length < target ∧ (noRep = false ∨ c ∉ used) then
      placeRequired noRep target rest (pwd ++ [c])
        (if noRep then c :: used else used)
    else
      placeRequired noRep target rest pwd used

/-- The fill loop (step 4): `n` counts the positions still to fill
(`opts.length - password.length`, the while-guard of the source).  Each
iteration stops on an empty pool, otherwise draws an index into the
available pool, pushes that character, and splices it out of the pool when
`noRepeating`. -/
def fillLoop (noRep : Bool) (s : ℕ → ℕ) (fuel : ℕ) :
    ℕ → List Char → List (Option Char) → ℕ → Option (List (Option Char) × ℕ)
  | 0, _, pwd, k => some (pwd, k)
  | n + 1, avail, pwd, k =>
    if avail.length = 0 then some (pwd, k)
    else
      match getSecureRandomInt (avail.length : ℤ) s fuel k with
      | none => none
      | some (i, kk) =>
        fillLoop noRep s fuel n
          (if noRep then avail.eraseIdx i else avail)
          (pwd ++ [some (avail.getD i 'A')]) kk

/-- JS `Array.prototype.join('')`: an `undefined` entry contributes the
empty string. -/
def jsJoin (l : List (Option Char)) : List Char := l.filterMap id

/-- JS string concatenation `firstChar + rest.join('')`: an `undefined`
first element stringifies as the text `undefined` (unreachable in the
configurations the theorems below cover). -/
def jsConcatFirst : Option Char → List Char → List Char
  | some c, rest => c :: rest
  | none, rest => ['u','n','d','e','f','i','n','e','d'] ++ rest

/-- The `beginWithLetter` seeding step of `generatePassword`: when the flag
is on and the letters-only sub-pool is non-empty, draw one letter, push it
as the first buffer entry, and record it as used when `noRepeating`.
Returns the initial `(password, usedChars)` pair and the new cursor. -/
def seedFirst (o : PwOpts) (s : ℕ → ℕ) (fuel k : ℕ) :
    Option ((List (Option Char) × List (Option Char)) × ℕ) :=
  if o.beginWithLetter ∧ 0 < (letterPool o).length then
    match getSecureRandomInt ((letterPool o).length : ℤ) s fuel k with
    | none => none
    | some (i, kk) =>
      some (([some ((letterPool o).getD i 'A')],
             if o.noRepeating then [some ((letterPool o).getD i 'A')]
             else []), kk)
  else some (([], []), k)

/-- The available pool the fill loop starts from: under `noRepeating` the
full pool minus the used characters, otherwise the full pool. -/
def availStart (o : PwOpts) (used : List (Option Char)) : List Char :=
  if o.noRepeating then (charPool o).filter (fun c => (some c) ∉ used)
  else charPool o

/-- Embedding of `generatePassword`: required-character pre-draws during
pool assembly (numbers then symbols), empty-pool fallback, `noRepeating`
length clamp, optional first-letter seeding, required placement, fill loop,
and the final shuffle that holds a seeded first character fixed.  (The `[]`
arm of the last match is unreachable: it is guarded by `1 < pwdF.length`.) -/
def generatePassword (o : PwOpts) (s : ℕ → ℕ) (fuel k0 : ℕ) :
    Option (List Char × ℕ) :=
  match (if o.numbers then drawRequired (numClass o) s fuel o.minNumbers k0
         else some ([], k0)) with
  | none => none
  | some (reqN, k1) =>
    match (if o.symbols then drawRequired (symClass o) s fuel o.minSymbols k1
           else some ([], k1)) with
    | none => none
    | some (reqS, k2) =>
      match seedFirst o s fuel k2 with
      | none => none
      | some (seeded, k3) =>
        match fillLoop o.noRepeating s fuel
            (targetLen o - (placeRequired o.noRepeating (targetLen o)
              (reqN ++ reqS) seeded.1 seeded.2).1.length)
            (availStart o (placeRequired o.noRepeating (targetLen o)
              (reqN ++ reqS) seeded.1 seeded.2).2)
            (placeRequired o.noRepeating (targetLen o)
              (reqN ++ reqS) seeded.1 seeded.2).1 k3 with
        | none => none
        | some (pwdF, k4) =>
          if o.beginWithLetter ∧ 1 < pwdF.length then
            match pwdF with
            | [] => none
            | f :: rest =>
              match secureShuffleArray s fuel none rest k4 with
              | none => none
              | some (restSh, k5) => some (jsConcatFirst f (jsJoin restSh), k5)
          else
            match secureShuffleArray s fuel none pwdF k4 with
            | none => none
            | some (pwdSh, k5) => some (jsJoin pwdSh, k5)

/-- Stream of draws used by the C3 counterexample. -/
def streamC3 : ℕ → ℕ := fun n => [10, 5, 0].getD n 0

/-- Configuration for the C3 counterexample: `noRepeating`, length 2,
numbers enabled, and a custom symbol `5` that duplicates a digit already in
the pool. -/
def cfgC3 : PwOpts :=
  ⟨2, false, false, true, true, false, false, some ['5'], 0, 0, false, true⟩

/-- C3 counterexample: a valid `noRepeating` configuration (length 2 within
the pool size 11) whose pool contains the character `5` twice; the run picks
both copies and returns `55`, which repeats a character. -/
theorem claim3_counterexample :
    generatePassword cfgC3 streamC3 1 0 = some (['5', '5'], 3) ∧
    ¬ (['5', '5'] : List Char).Nodup := by decide

/-- Stream of draws used by the C4 counterexample. -/
def streamC4 : ℕ → ℕ := fun n => [18].getD n 0

/-- Configuration for the C4 counterexample: symbols only with
`excludeAmbiguous` set. -/
def cfgC4 : PwOpts :=
  ⟨1, false, false, false, true, true, false, none, 0, 0, false, false⟩

/-- C4 counterexample: with `excludeAmbiguous` set the symbols class is not
filtered, so the ambiguous character `|` stays in the pool and is returned. -/
theorem claim4_counterexample :
    generatePassword cfgC4 streamC4 1 0 = some (['|'], 1) ∧
    '|' ∈ AMBIGUOUS := by decide

/-- Stream of all-zero draws. -/
def zeroStream : ℕ → ℕ := fun _ => 0

/-- Configuration for the C5 counterexample: `beginWithLetter` set but no
letter class enabled (numbers only). -/
def cfgC5 : PwOpts :=
  ⟨2, false, false, true, false, false, false, none, 0, 0, true, false⟩

/-- C5 counterexample: with `beginWithLetter` set but both letter classes
disabled the letters-only sub-pool is empty, no first letter is seeded, and
the output starts with the digit `0`, not a letter. -/
theorem claim5_counterexample :
    generatePassword cfgC5 zeroStream 1 0 = some (['0', '0'], 2) ∧
    isLowerAlpha '0' = false ∧ isUpperAlpha '0' = false := by decide

/- A list with the `k`-th element pulled to the front of the `k`-th-set
version is a permutation of consing the written value. -/
theorem getD_set_cons_perm (d : α) :
    ∀ (t : List α) (k : ℕ) (a : α), k < t.length →
      List.Perm ((t.getD k d) :: t.set k a) (a :: t) := by
  intro t
  induction t with
  | nil => intro k a h; simp at h
  | cons b u ih =>
    intro k a h
    cases k with
    | zero =>
      simpa using List.Perm.swap a b u
    | succ m =>
      have hm : m < u.length := by simpa using h
      have h1 : (b :: u).getD (m + 1) d :: (b :: u).set (m + 1) a
          = u.getD m d :: b :: u.set m a := by simp
      rw [h1]
      refine (List.Perm.swap _ _ _).trans ?_
      refine ((ih m a hm).cons b).trans ?_
      exact List.Perm.swap _ _ _

/- The JS destructuring swap permutes the list when both indices are in
range. -/
theorem swapList_perm (d : α) :
    ∀ (l : List α) (i j : ℕ), i < l.length → j < l.length →
      List.Perm (swapList d l i j) l := by
  intro l
  induction l with
  | nil => intro i j hi hj; simp at hi
  | cons x t ih =>
    intro i j hi hj
    cases i with
    | zero =>
      cases j with
      | zero => simp [swapList]
      | succ m =>
        have hm : m < t.length := by simpa using hj
        have : swapList d (x :: t) 0 (m + 1) = t.getD m d :: t.set m x := by
          simp [swapList]
        rw [this]
        exact getD_set_cons_perm d t m x hm
    | succ n =>
      cases j with
      | zero =>
        have hn : n < t.length := by simpa using hi
        have : swapList d (x :: t) (n + 1) 0 = t.getD n d :: t.set n x := by
          simp [swapList]
        rw [this]
        exact getD_set_cons_perm d t n x hn
      | succ m =>
        have hn : n < t.length := by simpa using hi
        have hm : m < t.length := by simpa using hj
        have : swapList d (x :: t) (n + 1) (m + 1) = x :: swapList d t n m := by
          simp [swapList]
        rw [this]
        exact (ih n m hn hm).cons x

/- The Fisher–Yates loop permutes its input when started at an in-range
index (or 0). -/
theorem fyLoop_perm (s : ℕ → ℕ) (fuel : ℕ) (d : α) :
    ∀ i l k out kk, (i = 0 ∨ i < l.length) →
      fyLoop s fuel d i l k = some (out, kk) → List.Perm out l := by
  intro i
  induction i with
  | zero =>
    intro l k out kk hrange h
    obtain ⟨rfl, rfl⟩ : l = out ∧ k = kk := by
      simpa [fyLoop] using h
    exact List.Perm.refl _
  | succ n ih =>
    intro l k out kk hrange h
    have hlen : n + 1 < l.length := by
      rcases hrange with h0 | h1
      · omega
      · exact h1
    simp only [fyLoop] at h
    cases hd : getSecureRandomInt ((n : ℤ) + 2) s fuel k with
    | none => rw [hd] at h; simp at h
    | some p =>
      rw [hd] at h
      obtain ⟨j, kk0⟩ := p
      dsimp only at h
      have hj : j < l.length := by
        have := getSecureRandomInt_lt ((n : ℤ) + 2) s fuel k (by omega) j kk0 hd
        have h2 : ((n : ℤ) + 2).toNat = n + 2 := by omega
        rw [h2] at this
        omega
      have hswap : List.Perm (swapList d l (n + 1) j) l :=
        swapList_perm d l (n + 1) j hlen hj
      have hlen' : (swapList d l (n + 1) j).length = l.length := by
        simp [swapList]
      have := ih (swapList d l (n + 1) j) kk0 out kk
        (by rw [hlen']; omega) h
      exact this.trans hswap

/-- The full shuffle returns a permutation of its input. -/
theorem secureShuffleArray_perm (s : ℕ → ℕ) (fuel : ℕ) (d : α)
    (l : List α) (k : ℕ) (out : List α) (kk : ℕ)
    (h : secureShuffleArray s fuel d l k = some (out, kk)) : List.Perm out l := by
  unfold secureShuffleArray at h
  refine fyLoop_perm s fuel d (l.length - 1) l k out kk ?_ h
  cases l with
  | nil => left; rfl
  | cons x t => right; simp

/- Characters of the join are exactly the defined entries of the buffer. -/
theorem mem_jsJoin (l : List (Option Char)) (c : Char) :
    c ∈ jsJoin l ↔ some c ∈ l := by
  unfold jsJoin
  rw [List.mem_filterMap]
  constructor
  · rintro ⟨a, ha, hid⟩
    cases a with
    | none => simp at hid
    | some b =>
      obtain rfl : b = c := by simpa using hid
      exact ha
  · intro hm
    exact ⟨some c, hm, rfl⟩

/- The join of a duplicate-free buffer is duplicate-free. -/
theorem jsJoin_nodup (l : List (Option Char)) (h : l.Nodup) :
    (jsJoin l).Nodup := by
  refine List.Nodup.filterMap ?_ h
  intro a a' b hb hb'
  have ha : a = some b := by simpa using hb
  have ha' : a' = some b := by simpa using hb'
  rw [ha, ha']

/- The join of a buffer with no undefined entries keeps its length. -/
theorem jsJoin_length (l : List (Option Char)) (h : ∀ x ∈ l, x.isSome = true) :
    (jsJoin l).length = l.length := by
  induction l with
  | nil => rfl
  | cons x t ih =>
    cases x with
    | none =>
      have := h none (by simp)
      simp at this
    | some c =>
      have : jsJoin (some c :: t) = c :: jsJoin t := by
        simp [jsJoin]
      rw [this]
      simp only [List.length_cons]
      rw [ih (fun x hx => h x (by simp [hx]))]

/- An index removed from a duplicate-free list removes that element. -/
theorem eraseIdx_not_mem_of_nodup (d : Char) :
    ∀ (l : List Char) (i : ℕ), l.Nodup → i < l.length →
      l.getD i d ∉ l.eraseIdx i := by
  intro l
  induction l with
  | nil => intro i h1 h2; simp at h2
  | cons x t ih =>
    intro i h1 h2
    obtain ⟨hx, ht⟩ := List.nodup_cons.mp h1
    cases i with
    | zero =>
      simpa using hx
    | succ m =>
      have hm : m < t.length := by simpa using h2
      have hred : (x :: t).eraseIdx (m + 1) = x :: t.eraseIdx m := rfl
      rw [hred, List.getD_cons_succ, List.mem_cons]
      push_neg
      constructor
      · intro he
        have hmem : t.getD m d ∈ t := by
          rw [List.getD_eq_getElem t d hm]
          exact List.getElem_mem hm
        rw [he] at hmem
        exact hx hmem
      · exact ih m ht hm

/- Entry facts for the required-character pre-draws: every defined entry
comes from the class, and entries are defined whenever the class is
non-empty. -/
theorem drawRequired_entries (cls : List Char) (s : ℕ → ℕ) (fuel : ℕ) :
    ∀ n k out kk, drawRequired cls s fuel n k = some (out, kk) →
      ∀ x ∈ out, (∀ c, x = some c → c ∈ cls) ∧
        (cls ≠ [] → x.isSome = true) := by
  intro n
  induction n with
  | zero =>
    intro k out kk h x hx
    obtain ⟨rfl, rfl⟩ : ([] : List (Option Char)) = out ∧ k = kk := by
      simpa [drawRequired] using h
    simp at hx
  | succ m ih =>
    intro k out kk h x hx
    simp only [drawRequired] at h
    cases hd : getSecureRandomInt (cls.length : ℤ) s fuel k with
    | none => rw [hd] at h; simp at h
    | some p =>
      rw [hd] at h
      obtain ⟨i, kk0⟩ := p
      dsimp only at h
      cases hr : drawRequired cls s fuel m kk0 with
      | none => rw [hr] at h; simp at h
      | some q =>
        rw [hr] at h
        obtain ⟨rest, kf⟩ := q
        dsimp only at h
        obtain ⟨rfl, rfl⟩ : cls.get? i :: rest = out ∧ kf = kk := by
          simpa using h
        rcases List.mem_cons.mp hx with rfl | hx'
        · constructor
          · intro c hc
            exact List.get?_mem hc
          · intro hne
            have hlen : 0 < cls.length := List.length_pos.mpr hne
            have hi := getSecureRandomInt_lt (cls.length : ℤ) s fuel k
              (by exact_mod_cast hlen) i kk0 hd
            rw [Int.toNat_natCast] at hi
            have := List.get?_eq_get hi
            rw [this]
            rfl
        · exact ih kk0 rest kf hr x hx'

/- The placement loop only appends, and appends only pre-drawn entries. -/
theorem placeRequired_prefix (noRep : Bool) (target : ℕ) :
    ∀ req pwd used, ∃ t, (placeRequired noRep target req pwd used).1 = pwd ++ t ∧
      ∀ x ∈ t, x ∈ req := by
  intro req
  induction req with
  | nil =>
    intro pwd used
    exact ⟨[], by simp [placeRequired], by simp⟩
  | cons c rest ih =>
    intro pwd used
    simp only [placeRequired]
    by_cases hc : pwd.length < target ∧ (noRep = false ∨ c ∉ used)
    · rw [if_pos hc]
      obtain ⟨t, ht1, ht2⟩ := ih (pwd ++ [c]) (if noRep then c :: used else used)
      refine ⟨c :: t, ?_, ?_⟩
      · rw [ht1, List.append_assoc]
        rfl
      · intro x hx
        rcases List.mem_cons.mp hx with rfl | hx'
        · exact List.mem_cons_self _ _
        · exact List.mem_cons_of_mem _ (ht2 x hx')
    · rw [if_neg hc]
      obtain ⟨t, ht1, ht2⟩ := ih pwd used
      exact ⟨t, ht1, fun x hx => List.mem_cons_of_mem _ (ht2 x hx)⟩

/- Under `noRepeating` the placement loop keeps the buffer duplicate-free
and within the target length, with `usedChars` tracking exactly the buffer
contents. -/
theorem placeRequired_invariant (target : ℕ) :
    ∀ req pwd used, pwd.Nodup → (∀ x, x ∈ used ↔ x ∈ pwd) →
      pwd.length ≤ target →
      (placeRequired true target req pwd used).1.Nodup ∧
      (∀ x, x ∈ (placeRequired true target req pwd used).2 ↔
        x ∈ (placeRequired true target req pwd used).1) ∧
      (placeRequired true target req pwd used).1.length ≤ target := by
  intro req
  induction req with
  | nil =>
    intro pwd used h1 h2 h3
    simp only [placeRequired]
    exact ⟨h1, h2, h3⟩
  | cons c rest ih =>
    intro pwd used h1 h2 h3
    simp only [placeRequired]
    by_cases hc : pwd.length < target ∧ ((true : Bool) = false ∨ c ∉ used)
    · rw [if_pos hc]
      simp only [if_true]
      have hcu : c ∉ used := by
        rcases hc.2 with hq | hq
        · simp at hq
        · exact hq
      have hcp : c ∉ pwd := fun hm => hcu ((h2 c).mpr hm)
      refine ih (pwd ++ [c]) (c :: used) ?_ ?_ ?_
      · rw [← List.concat_eq_append]
        exact List.Nodup.concat hcp h1
      · intro x
        rw [List.mem_cons, List.mem_append, List.mem_singleton, h2 x]
        tauto
      · have := hc.1
        simp only [List.length_append, List.length_singleton]
        omega
    · rw [if_neg hc]
      exact ih pwd used h1 h2 h3

/- The fill loop only appends, and appends only available-pool characters. -/
theorem fillLoop_entries (noRep : Bool) (s : ℕ → ℕ) (fuel : ℕ) :
    ∀ n avail pwd k out kk,
      fillLoop noRep s fuel n avail pwd k = some (out, kk) →
      ∃ t, out = pwd ++ t ∧ ∀ x ∈ t, ∃ c, x = some c ∧ c ∈ avail := by
  intro n
  induction n with
  | zero =>
    intro avail pwd k out kk h
    obtain ⟨rfl, rfl⟩ : pwd = out ∧ k = kk := by simpa [fillLoop] using h
    exact ⟨[], by simp, by simp⟩
  | succ m ih =>
    intro avail pwd k out kk h
    simp only [fillLoop] at h
    by_cases hav : avail.length = 0
    · rw [if_pos hav] at h
      obtain ⟨rfl, rfl⟩ : pwd = out ∧ k = kk := by simpa using h
      exact ⟨[], by simp, by simp⟩
    · rw [if_neg hav] at h
      cases hd : getSecureRandomInt (avail.length : ℤ) s fuel k with
      | none => rw [hd] at h; simp at h
      | some p =>
        rw [hd] at h
        obtain ⟨i, kk0⟩ := p
        dsimp only at h
        have hi : i < avail.length := by
          have := getSecureRandomInt_lt (avail.length : ℤ) s fuel k
            (by omega) i kk0 hd
          rw [Int.toNat_natCast] at this
          exact this
        obtain ⟨t, ht1, ht2⟩ := ih (if noRep then avail.eraseIdx i else avail)
          (pwd ++ [some (avail.getD i 'A')]) kk0 out kk h
        refine ⟨some (avail.getD i 'A') :: t, ?_, ?_⟩
        · rw [ht1, List.append_assoc]
          rfl
        · intro x hx
          rcases List.mem_cons.mp hx with rfl | hx'
          · refine ⟨avail.getD i 'A', rfl, ?_⟩
            rw [List.getD_eq_getElem avail 'A' hi]
            exact List.getElem_mem hi
          · obtain ⟨c, hc1, hc2⟩ := ht2 x hx'
            refine ⟨c, hc1, ?_⟩
            by_cases hnr : noRep
            · rw [if_pos hnr] at hc2
              exact List.eraseIdx_subset avail i hc2
            · rw [if_neg hnr] at hc2
              exact hc2

/- Under `noRepeating` the fill loop, started disjointly from a
duplicate-free pool big enough for the remaining positions, fills exactly
those positions without introducing duplicates. -/
theorem fillLoop_noRepeat (s : ℕ → ℕ) (fuel : ℕ) :
    ∀ n avail pwd k out kk,
      fillLoop true s fuel n avail pwd k = some (out, kk) →
      pwd.Nodup → avail.Nodup → (∀ c ∈ avail, (some c) ∉ pwd) →
      n ≤ avail.length →
      out.Nodup ∧ out.length = pwd.length + n := by
  intro n
  induction n with
  | zero =>
    intro avail pwd k out kk h h1 h2 h3 h4
    obtain ⟨rfl, rfl⟩ : pwd = out ∧ k = kk := by simpa [fillLoop] using h
    exact ⟨h1, by omega⟩
  | succ m ih =>
    intro avail pwd k out kk h h1 h2 h3 h4
    simp only [fillLoop] at h
    rw [if_neg (by omega : ¬ avail.length = 0)] at h
    cases hd : getSecureRandomInt (avail.length : ℤ) s fuel k with
    | none => rw [hd] at h; simp at h
    | some p =>
      rw [hd] at h
      obtain ⟨i, kk0⟩ := p
      dsimp only at h
      simp only [if_true] at h
      have hi : i < avail.length := by
        have := getSecureRandomInt_lt (avail.length : ℤ) s fuel k
          (by omega) i kk0 hd
        rw [Int.toNat_natCast] at this
        exact this
      have hmem : avail.getD i 'A' ∈ avail := by
        rw [List.getD_eq_getElem avail 'A' hi]
        exact List.getElem_mem hi
      have hpwd' : (pwd ++ [some (avail.getD i 'A')]).Nodup := by
        rw [← List.concat_eq_append]
        exact List.Nodup.concat (h3 _ hmem) h1
      have hav' : (avail.eraseIdx i).Nodup := List.Nodup.eraseIdx i h2
      have hnotm : avail.getD i 'A' ∉ avail.eraseIdx i :=
        eraseIdx_not_mem_of_nodup 'A' avail i h2 hi
      have hdisj : ∀ c ∈ avail.eraseIdx i,
          (some c) ∉ pwd ++ [some (avail.getD i 'A')] := by
        intro c hc hin
        rcases List.mem_append.mp hin with hin' | hin'
        · exact h3 c (List.eraseIdx_subset avail i hc) hin'
        · rw [List.mem_singleton, Option.some_inj] at hin'
          rw [hin'] at hc
          exact hnotm hc
      have hlen' : m ≤ (avail.eraseIdx i).length := by
        rw [List.length_eraseIdx, if_pos hi]
        omega
      obtain ⟨ho1, ho2⟩ := ih (avail.eraseIdx i)
        (pwd ++ [some (avail.getD i 'A')]) kk0 out kk h hpwd' hav' hdisj hlen'
      refine ⟨ho1, ?_⟩
      rw [ho2]
      simp only [List.length_append, List.length_singleton]
      omega

/- Inversion of a successful `generatePassword` run into its stages. -/
theorem generatePassword_inv (o : PwOpts) (s : ℕ → ℕ) (fuel k : ℕ)
    (out : List Char) (kk : ℕ)
    (h : generatePassword o s fuel k = some (out, kk)) :
    ∃ reqN k1 reqS k2 seeded k3 pwdF k4,
      (if o.numbers then drawRequired (numClass o) s fuel o.minNumbers k
        else some ([], k)) = some (reqN, k1) ∧
      (if o.symbols then drawRequired (symClass o) s fuel o.minSymbols k1
        else some ([], k1)) = some (reqS, k2) ∧
      seedFirst o s fuel k2 = some (seeded, k3) ∧
      fillLoop o.noRepeating s fuel
        (targetLen o - (placeRequired o.noRepeating (targetLen o)
          (reqN ++ reqS) seeded.1 seeded.2).1.length)
        (availStart o (placeRequired o.noRepeating (targetLen o)
          (reqN ++ reqS) seeded.1 seeded.2).2)
        (placeRequired o.noRepeating (targetLen o)
          (reqN ++ reqS) seeded.1 seeded.2).1 k3 = some (pwdF, k4) ∧
      ((o.beginWithLetter = true ∧ 1 < pwdF.length ∧
        ∃ f rest restSh k5, pwdF = f :: rest ∧
          secureShuffleArray s fuel none rest k4 = some (restSh, k5) ∧
          out = jsConcatFirst f (jsJoin restSh)) ∨
       (¬(o.beginWithLetter = true ∧ 1 < pwdF.length) ∧
        ∃ pwdSh k5, secureShuffleArray s fuel none pwdF k4 = some (pwdSh, k5) ∧
          out = jsJoin pwdSh)) := by
  unfold generatePassword at h
  cases hN : (if o.numbers then drawRequired (numClass o) s fuel o.minNumbers k
      else some ([], k)) with
  | none => rw [hN] at h; simp at h
  | some pN =>
    rw [hN] at h
    obtain ⟨reqN, k1⟩ := pN
    dsimp only at h
    cases hS : (if o.symbols then drawRequired (symClass o) s fuel o.minSymbols k1
        else some ([], k1)) with
    | none => rw [hS] at h; simp at h
    | some pS =>
      rw [hS] at h
      obtain ⟨reqS, k2⟩ := pS
      dsimp only at h
      cases hSeed : seedFirst o s fuel k2 with
      | none => rw [hSeed] at h; simp at h
      | some pSeed =>
        rw [hSeed] at h
        obtain ⟨seeded, k3⟩ := pSeed
        dsimp only at h
        cases hF : fillLoop o.noRepeating s fuel
            (targetLen o - (placeRequired o.noRepeating (targetLen o)
              (reqN ++ reqS) seeded.1 seeded.2).1.length)
            (availStart o (placeRequired o.noRepeating (targetLen o)
              (reqN ++ reqS) seeded.1 seeded.2).2)
            (placeRequired o.noRepeating (targetLen o)
              (reqN ++ reqS) seeded.1 seeded.2).1 k3 with
        | none => rw [hF] at h; simp at h
        | some pF =>
          rw [hF] at h
          obtain ⟨pwdF, k4⟩ := pF
          dsimp only at h
          refine ⟨reqN, k1, reqS, k2, seeded, k3, pwdF, k4,
            rfl, hS, hSeed, hF, ?_⟩
          by_cases hb : o.beginWithLetter ∧ 1 < pwdF.length
          · rw [if_pos hb] at h
            left
            cases pwdF with
            | nil => simp at hb
            | cons f rest =>
              dsimp only at h
              refine ⟨hb.1, hb.2, f, rest, ?_⟩
              cases hSh : secureShuffleArray s fuel (none : Option Char) rest k4 with
              | none => rw [hSh] at h; simp at h
              | some pSh =>
                rw [hSh] at h
                obtain ⟨restSh, k5⟩ := pSh
                dsimp only at h
                obtain ⟨rfl, rfl⟩ : jsConcatFirst f (jsJoin restSh) = out ∧
                    k5 = kk := by simpa using h
                exact ⟨restSh, k5, rfl, rfl, rfl⟩
          · rw [if_neg hb] at h
            right
            refine ⟨hb, ?_⟩
            cases hSh : secureShuffleArray s fuel (none : Option Char) pwdF k4 with
            | none => rw [hSh] at h; simp at h
            | some pSh =>
              rw [hSh] at h
              obtain ⟨pwdSh, k5⟩ := pSh
              dsimp only at h
              obtain ⟨rfl, rfl⟩ : jsJoin pwdSh = out ∧ k5 = kk := by
                simpa using h
              exact ⟨pwdSh, k5, rfl, rfl⟩

/- Facts about the seeding step: either nothing is seeded (and `usedChars`
starts empty), or one letter-pool character is seeded (and recorded as used
when `noRepeating`). -/
theorem seedFirst_facts (o : PwOpts) (s : ℕ → ℕ) (fuel k : ℕ)
    (seeded : List (Option Char) × List (Option Char)) (k3 : ℕ)
    (h : seedFirst o s fuel k = some (seeded, k3)) :
    (seeded.1 = [] ∧ seeded.2 = []) ∨
    (∃ c, c ∈ letterPool o ∧ seeded.1 = [some c] ∧
      seeded.2 = if o.noRepeating then [some c] else []) := by
  unfold seedFirst at h
  by_cases hc : o.beginWithLetter ∧ 0 < (letterPool o).length
  · rw [if_pos hc] at h
    cases hd : getSecureRandomInt ((letterPool o).length : ℤ) s fuel k with
    | none => rw [hd] at h; simp at h
    | some p =>
      rw [hd] at h
      obtain ⟨i, kk0⟩ := p
      dsimp only at h
      obtain ⟨rfl, rfl⟩ : ([some ((letterPool o).getD i 'A')],
          if o.noRepeating then [some ((letterPool o).getD i 'A')] else []) =
            seeded ∧ kk0 = k3 := by
        simpa using h
      right
      have hi : i < (letterPool o).length := by
        have := getSecureRandomInt_lt ((letterPool o).length : ℤ) s fuel k
          (by exact_mod_cast hc.2) i kk0 hd
        rw [Int.toNat_natCast] at this
        exact this
      refine ⟨(letterPool o).getD i 'A', ?_, rfl, rfl⟩
      rw [List.getD_eq_getElem _ 'A' hi]
      exact List.getElem_mem hi
  · rw [if_neg hc] at h
    obtain ⟨rfl, rfl⟩ : (([] : List (Option Char)), ([] : List (Option Char)))
        = seeded ∧ k = k3 := by simpa using h
    left
    exact ⟨rfl, rfl⟩

/- With `beginWithLetter` on and a non-empty letter pool, the seeding step
always seeds. -/
theorem seedFirst_seeded (o : PwOpts) (s : ℕ → ℕ) (fuel k : ℕ)
    (seeded : List (Option Char) × List (Option Char)) (k3 : ℕ)
    (h : seedFirst o s fuel k = some (seeded, k3))
    (hb : o.beginWithLetter = true) (hlp : letterPool o ≠ []) :
    ∃ c, c ∈ letterPool o ∧ seeded.1 = [some c] ∧
      seeded.2 = if o.noRepeating then [some c] else [] := by
  rcases seedFirst_facts o s fuel k seeded k3 h with ⟨h1, -⟩ | hgood
  · exfalso
    unfold seedFirst at h
    rw [if_pos ⟨hb, List.length_pos.mpr hlp⟩] at h
    cases hd : getSecureRandomInt ((letterPool o).length : ℤ) s fuel k with
    | none => rw [hd] at h; simp at h
    | some p =>
      rw [hd] at h
      obtain ⟨i, kk0⟩ := p
      dsimp only at h
      obtain ⟨rfl, -⟩ : ([some ((letterPool o).getD i 'A')],
          if o.noRepeating then [some ((letterPool o).getD i 'A')] else []) =
            seeded ∧ kk0 = k3 := by simpa using h
      simp at h1
  · exact hgood

/- Defined entries of the required pre-draws come from the class. -/
theorem reqStage_mem {cond : Bool} {cls : List Char} {s : ℕ → ℕ}
    {fuel n k : ℕ} {req : List (Option Char)} {k1 : ℕ}
    (h : (if cond then drawRequired cls s fuel n k else some ([], k)) =
      some (req, k1)) :
    ∀ x ∈ req, ∀ c, x = some c → c ∈ cls := by
  by_cases hc : cond
  · rw [if_pos hc] at h
    intro x hx c hxc
    exact (drawRequired_entries cls s fuel n k req k1 h x hx).1 c hxc
  · rw [if_neg hc] at h
    obtain ⟨rfl, rfl⟩ : ([] : List (Option Char)) = req ∧ k = k1 := by
      simpa using h
    intro x hx
    simp at hx

/- Entries of the required pre-draws are defined when the class is
non-empty. -/
theorem reqStage_isSome {cond : Bool} {cls : List Char} {s : ℕ → ℕ}
    {fuel n k : ℕ} {req : List (Option Char)} {k1 : ℕ}
    (h : (if cond then drawRequired cls s fuel n k else some ([], k)) =
      some (req, k1)) (hne : cls ≠ []) :
    ∀ x ∈ req, x.isSome = true := by
  by_cases hc : cond
  · rw [if_pos hc] at h
    intro x hx
    exact (drawRequired_entries cls s fuel n k req k1 h x hx).2 hne
  · rw [if_neg hc] at h
    obtain ⟨rfl, rfl⟩ : ([] : List (Option Char)) = req ∧ k = k1 := by
      simpa using h
    intro x hx
    simp at hx

/-- The five ambiguous characters the filtered classes can never produce
(`|` is excluded from this set: the symbols class is never filtered by the
ambiguous rule). -/
def AMBIG_FIVE : List Char := ['0', 'O', '1', 'l', 'I']

/- Class-content facts used by the pool-membership arguments. -/
theorem upClass_no_ambig (o : PwOpts) (h : o.excludeAmbiguous = true) :
    ∀ c ∈ upClass o, c ∉ AMBIG_FIVE := by
  have he : upClass o = removeChars UPPERCASE AMBIGUOUS := by
    unfold upClass
    rw [h]
    simp
  rw [he]
  decide

theorem lowClass_no_ambig (o : PwOpts) (h : o.excludeAmbiguous = true) :
    ∀ c ∈ lowClass o, c ∉ AMBIG_FIVE := by
  have he : lowClass o = removeChars LOWERCASE AMBIGUOUS := by
    unfold lowClass
    rw [h]
    simp
  rw [he]
  decide

theorem numClass_no_ambig (o : PwOpts) (h : o.excludeAmbiguous = true) :
    ∀ c ∈ numClass o, c ∉ AMBIG_FIVE := by
  have he : numClass o = removeChars NUMBERS AMBIGUOUS := by
    unfold numClass
    rw [h]
    simp
  rw [he]
  decide

theorem symBase_default (o : PwOpts) (h : o.customSymbols = none) :
    symBase o = SYMBOLS := by
  unfold symBase
  rw [h]

theorem symClass_no_ambig (o : PwOpts) (h : o.customSymbols = none) :
    ∀ c ∈ symClass o, c ∉ AMBIG_FIVE := by
  unfold symClass
  rw [symBase_default o h]
  split_ifs <;> decide

theorem symClass_default_ne_nil (o : PwOpts) (h : o.customSymbols = none) :
    symClass o ≠ [] := by
  unfold symClass
  rw [symBase_default o h]
  split_ifs <;> decide

theorem numClass_ne_nil (o : PwOpts) : numClass o ≠ [] := by
  unfold numClass
  split_ifs <;> decide

theorem upClass_letters (o : PwOpts) :
    ∀ c ∈ upClass o, isUpperAlpha c = true := by
  unfold upClass
  split_ifs <;> decide

theorem lowClass_letters (o : PwOpts) :
    ∀ c ∈ lowClass o, isLowerAlpha c = true := by
  unfold lowClass
  split_ifs <;> decide

theorem mem_upClass_A (o : PwOpts) : 'A' ∈ upClass o := by
  unfold upClass
  split_ifs <;> decide

theorem mem_lowClass_a (o : PwOpts) : 'a' ∈ lowClass o := by
  unfold lowClass
  split_ifs <;> decide

/- Every letter-pool character is a letter. -/
theorem letterPool_letters (o : PwOpts) :
    ∀ c ∈ letterPool o, isUpperAlpha c = true ∨ isLowerAlpha c = true := by
  intro c hc
  unfold letterPool at hc
  rcases List.mem_append.mp hc with h1 | h2
  · split_ifs at h1 with hu
    · exact Or.inl (upClass_letters o c h1)
    · simp at h1
  · split_ifs at h2 with hl
    · exact Or.inr (lowClass_letters o c h2)
    · simp at h2

/- The letter pool is non-empty whenever a letter class is enabled. -/
theorem letterPool_ne_nil (o : PwOpts)
    (h : o.uppercase = true ∨ o.lowercase = true) : letterPool o ≠ [] := by
  rcases h with h | h
  · refine List.ne_nil_of_mem (a := 'A') ?_
    unfold letterPool
    refine List.mem_append.mpr (Or.inl ?_)
    rw [h]
    exact mem_upClass_A o
  · refine List.ne_nil_of_mem (a := 'a') ?_
    unfold letterPool
    refine List.mem_append.mpr (Or.inr ?_)
    rw [h]
    exact mem_lowClass_a o

/- Decomposition of the raw pool into its class segments. -/
theorem rawPool_subset (o : PwOpts) (P : Char → Prop)
    (hup : ∀ c ∈ upClass o, P c) (hlow : ∀ c ∈ lowClass o, P c)
    (hnum : ∀ c ∈ numClass o, P c) (hsym : ∀ c ∈ symClass o, P c) :
    ∀ c ∈ rawPool o, P c := by
  intro c hc
  unfold rawPool at hc
  rcases List.mem_append.mp hc with hc1 | hc4
  · rcases List.mem_append.mp hc1 with hc2 | hc3
    · rcases List.mem_append.mp hc2 with hcu | hcl
      · split_ifs at hcu with hval
        · exact hup c hcu
        · simp at hcu
      · split_ifs at hcl with hval
        · exact hlow c hcl
        · simp at hcl
    · split_ifs at hc3 with hval
      · exact hnum c hc3
      · simp at hc3
  · split_ifs at hc4 with hval
    · exact hsym c hc4
    · simp at hc4

/- With at least one class enabled (and a usable symbols class) the raw pool
is non-empty, so the lowercase fallback is not taken. -/
theorem rawPool_ne_nil (o : PwOpts) (hcs : o.customSymbols = none)
    (hone : o.uppercase = true ∨ o.lowercase = true ∨ o.numbers = true ∨
      o.symbols = true) :
    rawPool o ≠ [] := by
  rcases hone with h | h | h | h
  · refine List.ne_nil_of_mem (a := 'A') ?_
    unfold rawPool
    refine List.mem_append.mpr (Or.inl (List.mem_append.mpr (Or.inl
      (List.mem_append.mpr (Or.inl ?_)))))
    rw [h]
    exact mem_upClass_A o
  · refine List.ne_nil_of_mem (a := 'a') ?_
    unfold rawPool
    refine List.mem_append.mpr (Or.inl (List.mem_append.mpr (Or.inl
      (List.mem_append.mpr (Or.inr ?_)))))
    rw [h]
    exact mem_lowClass_a o
  · obtain ⟨c, hc⟩ := List.exists_mem_of_ne_nil _ (numClass_ne_nil o)
    refine List.ne_nil_of_mem (a := c) ?_
    unfold rawPool
    refine List.mem_append.mpr (Or.inl (List.mem_append.mpr (Or.inr ?_)))
    rw [h]
    exact hc
  · obtain ⟨c, hc⟩ := List.exists_mem_of_ne_nil _ (symClass_default_ne_nil o hcs)
    refine List.ne_nil_of_mem (a := c) ?_
    unfold rawPool
    refine List.mem_append.mpr (Or.inr ?_)
    rw [h]
    exact hc

/- When the raw pool is non-empty it is the char pool. -/
theorem charPool_eq_rawPool (o : PwOpts) (h : rawPool o ≠ []) :
    charPool o = rawPool o := by
  unfold charPool
  rw [if_neg (fun hc => h (List.length_eq_zero.mp hc))]

/- The char pool is never empty. -/
theorem charPool_ne_nil (o : PwOpts) : charPool o ≠ [] := by
  unfold charPool
  split_ifs with h
  · decide
  · intro hc
    rw [hc] at h
    simp at h

/- Decomposition of the letter pool into its class segments. -/
theorem letterPool_subset (o : PwOpts) (P : Char → Prop)
    (hup : ∀ c ∈ upClass o, P c) (hlow : ∀ c ∈ lowClass o, P c) :
    ∀ c ∈ letterPool o, P c := by
  intro c hc
  unfold letterPool at hc
  rcases List.mem_append.mp hc with h1 | h2
  · split_ifs at h1 with hval
    · exact hup c h1
    · simp at h1
  · split_ifs at h2 with hval
    · exact hlow c h2
    · simp at h2

/-- C4 (amended): with `excludeAmbiguous` set, no custom symbol override and
at least one class enabled, no character of `{0, O, 1, l, I}` appears in the
output: the uppercase, lowercase and numbers classes are filtered before
pool assembly.  The sixth ambiguous character `|` is not covered — the
symbols class is never filtered by the ambiguous rule, as the counterexample
shows. -/
theorem claim4_exclude_ambiguous (o : PwOpts) (s : ℕ → ℕ) (fuel k : ℕ)
    (hamb : o.excludeAmbiguous = true)
    (hcs : o.customSymbols = none)
    (hone : o.uppercase = true ∨ o.lowercase = true ∨ o.numbers = true ∨
      o.symbols = true)
    (out : List Char) (kk : ℕ)
    (h : generatePassword o s fuel k = some (out, kk)) :
    ∀ c ∈ out, c ∉ AMBIG_FIVE := by
  obtain ⟨reqN, k1, reqS, k2, seeded, k3, pwdF, k4, hN, hS, hSeed, hF, hfin⟩ :=
    generatePassword_inv o s fuel k out kk h
  have hpoolP : ∀ c ∈ charPool o, c ∉ AMBIG_FIVE := by
    rw [charPool_eq_rawPool o (rawPool_ne_nil o hcs hone)]
    exact rawPool_subset o _ (upClass_no_ambig o hamb)
      (lowClass_no_ambig o hamb) (numClass_no_ambig o hamb)
      (symClass_no_ambig o hcs)
  have hreqP : ∀ x ∈ reqN ++ reqS, ∀ c, x = some c → c ∉ AMBIG_FIVE := by
    intro x hx c hxc
    rcases List.mem_append.mp hx with hx' | hx'
    · exact numClass_no_ambig o hamb c (reqStage_mem hN x hx' c hxc)
    · exact symClass_no_ambig o hcs c (reqStage_mem hS x hx' c hxc)
  have hseedP : ∀ x ∈ seeded.1, ∀ c, x = some c → c ∉ AMBIG_FIVE := by
    rcases seedFirst_facts o s fuel k2 seeded k3 hSeed with
      ⟨h1, -⟩ | ⟨c0, hc0, h1, -⟩
    · rw [h1]
      intro x hx
      simp at hx
    · rw [h1]
      intro x hx c hxc
      rw [List.mem_singleton] at hx
      rw [hx] at hxc
      obtain rfl : c0 = c := by simpa using hxc
      refine letterPool_subset o (fun c => c ∉ AMBIG_FIVE) ?_ ?_ c0 hc0
      · exact upClass_no_ambig o hamb
      · exact lowClass_no_ambig o hamb
  have hpwdF : ∀ x ∈ pwdF, ∀ c, x = some c → c ∉ AMBIG_FIVE := by
    obtain ⟨t, ht1, ht2⟩ := fillLoop_entries o.noRepeating s fuel _ _ _ k3
      pwdF k4 hF
    obtain ⟨t0, ht01, ht02⟩ := placeRequired_prefix o.noRepeating (targetLen o)
      (reqN ++ reqS) seeded.1 seeded.2
    intro x hx c hxc
    rw [ht1] at hx
    rcases List.mem_append.mp hx with hx' | hx'
    · rw [ht01] at hx'
      rcases List.mem_append.mp hx' with hx'' | hx''
      · exact hseedP x hx'' c hxc
      · exact hreqP x (ht02 x hx'') c hxc
    · obtain ⟨c', hc1, hc2⟩ := ht2 x hx'
      rw [hc1] at hxc
      have hcc : c' = c := by simpa using hxc
      rw [← hcc]
      refine hpoolP c' ?_
      unfold availStart at hc2
      split_ifs at hc2 with hnr
      · exact List.mem_of_mem_filter hc2
      · exact hc2
  intro c hc
  rcases hfin with ⟨hb, hlen, f, rest, restSh, k5, hpf, hsh, hout⟩ |
    ⟨hb, pwdSh, k5, hsh, hout⟩
  · rw [hout] at hc
    have hperm := secureShuffleArray_perm s fuel none rest k4 restSh k5 hsh
    cases f with
    | some c0 =>
      have hred : jsConcatFirst (some c0) (jsJoin restSh) =
          c0 :: jsJoin restSh := rfl
      rw [hred] at hc
      rcases List.mem_cons.mp hc with rfl | hc'
      · exact hpwdF (some c) (by rw [hpf]; exact List.mem_cons_self _ _) c rfl
      · have := (mem_jsJoin restSh c).mp hc'
        have hmem : some c ∈ rest := hperm.mem_iff.mp this
        exact hpwdF (some c)
          (by rw [hpf]; exact List.mem_cons_of_mem _ hmem) c rfl
    | none =>
      have hred : jsConcatFirst none (jsJoin restSh) =
          ['u','n','d','e','f','i','n','e','d'] ++ jsJoin restSh := rfl
      rw [hred] at hc
      rcases List.mem_append.mp hc with hc' | hc'
      · have hund : ∀ x ∈ (['u','n','d','e','f','i','n','e','d'] : List Char),
            x ∉ AMBIG_FIVE := by decide
        exact hund c hc'
      · have := (mem_jsJoin restSh c).mp hc'
        have hmem : some c ∈ rest := hperm.mem_iff.mp this
        exact hpwdF (some c)
          (by rw [hpf]; exact List.mem_cons_of_mem _ hmem) c rfl
  · rw [hout] at hc
    have hperm := secureShuffleArray_perm s fuel none pwdF k4 pwdSh k5 hsh
    have := (mem_jsJoin pwdSh c).mp hc
    exact hpwdF (some c) (hperm.mem_iff.mp this) c rfl

/-- Witness for C4: the run of the counterexample configuration satisfies
the amended guarantee — its output character `|` is outside the five
filtered ambiguous characters. -/
theorem claim4_exclude_ambiguous_witness : ('|' : Char) ∉ AMBIG_FIVE :=
  claim4_exclude_ambiguous cfgC4 streamC4 1 0 rfl rfl
    (Or.inr (Or.inr (Or.inr rfl))) ['|'] 1 (by decide) '|'
    (List.mem_singleton.mpr rfl)

/-- C5 (amended): with `beginWithLetter` set and at least one letter class
enabled, the output starts with a letter; the seeded first character is held
fixed while only the rest of the buffer is shuffled.  (Without an enabled
letter class the letters-only sub-pool is empty and the source skips the
seeding — the counterexample.) -/
theorem claim5_begin_with_letter (o : PwOpts) (s : ℕ → ℕ) (fuel k : ℕ)
    (hb : o.beginWithLetter = true)
    (hletter : o.uppercase = true ∨ o.lowercase = true)
    (out : List Char) (kk : ℕ)
    (h : generatePassword o s fuel k = some (out, kk)) :
    ∃ c rest, out = c :: rest ∧
      (isUpperAlpha c = true ∨ isLowerAlpha c = true) := by
  obtain ⟨reqN, k1, reqS, k2, seeded, k3, pwdF, k4, hN, hS, hSeed, hF, hfin⟩ :=
    generatePassword_inv o s fuel k out kk h
  obtain ⟨c0, hc0mem, hs1, hs2⟩ := seedFirst_seeded o s fuel k2 seeded k3 hSeed
    hb (letterPool_ne_nil o hletter)
  obtain ⟨t0, ht01, ht02⟩ := placeRequired_prefix o.noRepeating (targetLen o)
    (reqN ++ reqS) seeded.1 seeded.2
  obtain ⟨t, ht1, ht2⟩ := fillLoop_entries o.noRepeating s fuel _ _ _ k3
    pwdF k4 hF
  have hpwdF : pwdF = some c0 :: (t0 ++ t) := by
    rw [ht1, ht01, hs1]
    simp
  have hletter0 := letterPool_letters o c0 hc0mem
  rcases hfin with ⟨hb', hlen, f, rest, restSh, k5, hpf, hsh, hout⟩ |
    ⟨hb', pwdSh, k5, hsh, hout⟩
  · rw [hpwdF] at hpf
    injection hpf with h1 h2
    refine ⟨c0, jsJoin restSh, ?_, hletter0⟩
    rw [hout, ← h1]
    rfl
  · have hlen1 : pwdF.length ≤ 1 := by
      by_contra hgt
      exact hb' ⟨hb, by omega⟩
    rw [hpwdF] at hlen1
    have hnil : t0 ++ t = [] := by
      rw [List.length_cons] at hlen1
      exact List.length_eq_zero.mp (by omega)
    have hsingle : pwdF = [some c0] := by
      rw [hpwdF, hnil]
    rw [hsingle] at hsh
    have hperm := secureShuffleArray_perm s fuel none [some c0] k4 pwdSh k5 hsh
    have hpwdsh : pwdSh = [some c0] := List.perm_singleton.mp hperm
    refine ⟨c0, [], ?_, hletter0⟩
    rw [hout, hpwdsh]
    rfl

/-- Configuration for the C5 witness: all classes on, minimums 1,
`beginWithLetter` and `noRepeating` set, length 4. -/
def cfgBeginLetter : PwOpts :=
  ⟨4, true, true, true, true, false, false, none, 1, 1, true, true⟩

/-- Witness for C5 at a concrete run: the output `A!B0` starts with the
letter `A`. -/
theorem claim5_begin_with_letter_witness :
    ∃ c rest, (['A', '!', 'B', '0'] : List Char) = c :: rest ∧
      (isUpperAlpha c = true ∨ isLowerAlpha c = true) :=
  claim5_begin_with_letter cfgBeginLetter zeroStream 1 0 rfl (Or.inl rfl)
    ['A', '!', 'B', '0'] 6 (by decide)

/- A duplicate-free list contained in another is no longer than it. -/
theorem nodup_subset_length_le {α : Type} [DecidableEq α] {l₁ l₂ : List α}
    (h1 : l₁.Nodup) (h2 : l₁ ⊆ l₂) : l₁.length ≤ l₂.length := by
  calc l₁.length = l₁.toFinset.card := (List.toFinset_card_of_nodup h1).symm
    _ ≤ l₂.toFinset.card := Finset.card_le_card (fun a ha => by
        rw [List.mem_toFinset] at ha ⊢
        exact h2 ha)
    _ ≤ l₂.length := List.toFinset_card_le l₂

/- The clamp makes the target length the minimum of request and pool size. -/
theorem targetLen_eq_min (o : PwOpts) (hrep : o.noRepeating = true) :
    targetLen o = min o.length (charPool o).length := by
  unfold targetLen
  rw [hrep]
  split_ifs with hc
  · have := hc.2
    omega
  · have hnlt : ¬ (charPool o).length < o.length := fun hp => hc ⟨rfl, hp⟩
    omega

/- Entries of a required pre-draw stage are defined when the stage draws at
all and its class is non-empty. -/
theorem reqStage_isSome' {cond : Bool} {cls : List Char} {s : ℕ → ℕ}
    {fuel n k : ℕ} {req : List (Option Char)} {k1 : ℕ}
    (h : (if cond then drawRequired cls s fuel n k else some ([], k)) =
      some (req, k1))
    (hne : n ≠ 0 → cls ≠ []) :
    ∀ x ∈ req, x.isSome = true := by
  by_cases hn : n = 0
  · subst hn
    have hreq : req = [] := by
      by_cases hc : cond
      · rw [if_pos hc] at h
        obtain ⟨rfl, -⟩ : ([] : List (Option Char)) = req ∧ k = k1 := by
          simpa [drawRequired] using h
        rfl
      · rw [if_neg hc] at h
        obtain ⟨rfl, -⟩ : ([] : List (Option Char)) = req ∧ k = k1 := by
          simpa using h
        rfl
    rw [hreq]
    intro x hx
    simp at hx
  · exact reqStage_isSome h (hne hn)

/-- C3 (amended): with `noRepeating` set, a duplicate-free assembled pool,
and a symbols class that is non-empty whenever symbol pre-draws occur, the
output has no repeated character and its length is the requested length
clamped down to the pool size.  (The pool can contain duplicates only
through `customSymbols` overlapping another class or repeating characters —
the counterexample; an all-bracket `customSymbols` under `excludeBrackets`
with `minSymbols > 0` makes the source push `undefined` entries, which
vanish in the final join and break the length guarantee, hence the last
hypothesis.) -/
theorem claim3_norepeating (o : PwOpts) (s : ℕ → ℕ) (fuel k : ℕ)
    (hrep : o.noRepeating = true)
    (hlen : 1 ≤ o.length)
    (hnodup : (charPool o).Nodup)
    (hsym : o.symbols = true → o.minSymbols ≠ 0 → symClass o ≠ [])
    (out : List Char) (kk : ℕ)
    (h : generatePassword o s fuel k = some (out, kk)) :
    out.Nodup ∧ out.length = min o.length (charPool o).length := by
  obtain ⟨reqN, k1, reqS, k2, seeded, k3, pwdF, k4, hN, hS, hSeed, hF, hfin⟩ :=
    generatePassword_inv o s fuel k out kk h
  rw [hrep] at hF
  have htarget : targetLen o = min o.length (charPool o).length :=
    targetLen_eq_min o hrep
  have htpos : 1 ≤ targetLen o := by
    have := List.length_pos.mpr (charPool_ne_nil o)
    omega
  -- entries of the pre-draws are defined
  have hreqSome : ∀ x ∈ reqN ++ reqS, x.isSome = true := by
    intro x hx
    rcases List.mem_append.mp hx with hx' | hx'
    · exact reqStage_isSome' hN (fun _ => numClass_ne_nil o) x hx'
    · by_cases hos : o.symbols = true
      · exact reqStage_isSome' hS (hsym hos) x hx'
      · rw [if_neg (by simp [hos])] at hS
        obtain ⟨rfl, -⟩ : ([] : List (Option Char)) = reqS ∧ k1 = k2 := by
          simpa using hS
        simp at hx'
  -- seed facts
  have hseed := seedFirst_facts o s fuel k2 seeded k3 hSeed
  have hseedNodup : seeded.1.Nodup := by
    rcases hseed with ⟨h1, -⟩ | ⟨c0, -, h1, -⟩ <;> rw [h1] <;> simp
  have hseedSets : ∀ x, x ∈ seeded.2 ↔ x ∈ seeded.1 := by
    rcases hseed with ⟨h1, h2⟩ | ⟨c0, -, h1, h2⟩
    · rw [h1, h2]
      intro x
      rfl
    · rw [h1, h2, hrep]
      intro x
      simp
  have hseedSome : ∀ x ∈ seeded.1, x.isSome = true := by
    rcases hseed with ⟨h1, -⟩ | ⟨c0, -, h1, -⟩ <;> rw [h1]
    · intro x hx
      simp at hx
    · intro x hx
      rw [List.mem_singleton] at hx
      rw [hx]
      rfl
  have hseedLen : seeded.1.length ≤ targetLen o := by
    rcases hseed with ⟨h1, -⟩ | ⟨c0, -, h1, -⟩ <;> rw [h1] <;> simp
    omega
  -- placement invariant
  obtain ⟨hnd1, hsets1, hlen1⟩ := placeRequired_invariant (targetLen o)
    (reqN ++ reqS) seeded.1 seeded.2 hseedNodup hseedSets hseedLen
  have hsome1 : ∀ x ∈ (placeRequired true (targetLen o) (reqN ++ reqS)
      seeded.1 seeded.2).1, x.isSome = true := by
    obtain ⟨t0, ht01, ht02⟩ := placeRequired_prefix true (targetLen o)
      (reqN ++ reqS) seeded.1 seeded.2
    rw [ht01]
    intro x hx
    rcases List.mem_append.mp hx with hx' | hx'
    · exact hseedSome x hx'
    · exact hreqSome x (ht02 x hx')
  -- available pool facts
  have havailred : availStart o (placeRequired true (targetLen o)
      (reqN ++ reqS) seeded.1 seeded.2).2 =
      (charPool o).filter (fun c => (some c) ∉ (placeRequired true
        (targetLen o) (reqN ++ reqS) seeded.1 seeded.2).2) := by
    unfold availStart
    rw [hrep]
    simp
  rw [havailred] at hF
  have havailNodup : ((charPool o).filter (fun c => (some c) ∉ (placeRequired
      true (targetLen o) (reqN ++ reqS) seeded.1 seeded.2).2)).Nodup :=
    List.Nodup.filter _ hnodup
  have havailDisj : ∀ c ∈ (charPool o).filter (fun c => (some c) ∉
      (placeRequired true (targetLen o) (reqN ++ reqS) seeded.1 seeded.2).2),
      (some c) ∉ (placeRequired true (targetLen o) (reqN ++ reqS)
        seeded.1 seeded.2).1 := by
    intro c hc
    have hpred := (List.mem_filter.mp hc).2
    have hnotin : some c ∉ (placeRequired true (targetLen o) (reqN ++ reqS)
        seeded.1 seeded.2).2 := by simpa using hpred
    intro hmem
    exact hnotin ((hsets1 (some c)).mpr hmem)
  have havailBig : targetLen o - (placeRequired true (targetLen o)
      (reqN ++ reqS) seeded.1 seeded.2).1.length ≤
      ((charPool o).filter (fun c => (some c) ∉ (placeRequired true
        (targetLen o) (reqN ++ reqS) seeded.1 seeded.2).2)).length := by
    have hpart := List.length_eq_length_filter_add
      (l := charPool o) (fun c => decide ((some c) ∉ (placeRequired true
        (targetLen o) (reqN ++ reqS) seeded.1 seeded.2).2))
    have hBle : ((charPool o).filter (fun c => !(decide ((some c) ∉
        (placeRequired true (targetLen o) (reqN ++ reqS)
          seeded.1 seeded.2).2)))).length ≤
        (placeRequired true (targetLen o) (reqN ++ reqS)
          seeded.1 seeded.2).1.length := by
      have hmapnd : (((charPool o).filter (fun c => !(decide ((some c) ∉
          (placeRequired true (targetLen o) (reqN ++ reqS)
            seeded.1 seeded.2).2)))).map some).Nodup := by
        rw [List.nodup_map_iff (Option.some_injective Char)]
        exact List.Nodup.filter _ hnodup
      have hmapsub : (((charPool o).filter (fun c => !(decide ((some c) ∉
          (placeRequired true (targetLen o) (reqN ++ reqS)
            seeded.1 seeded.2).2)))).map some) ⊆
          (placeRequired true (targetLen o) (reqN ++ reqS)
            seeded.1 seeded.2).1 := by
        intro x hx
        rw [List.mem_map] at hx
        obtain ⟨c, hc, rfl⟩ := hx
        have := (List.mem_filter.mp hc).2
        have hin : some c ∈ (placeRequired true (targetLen o) (reqN ++ reqS)
            seeded.1 seeded.2).2 := by
          simpa using this
        exact (hsets1 (some c)).mp hin
      have := nodup_subset_length_le hmapnd hmapsub
      rw [List.length_map] at this
      exact this
    have htle : targetLen o ≤ (charPool o).length := by
      rw [htarget]
      omega
    omega
  -- fill loop result
  obtain ⟨hndF, hlenF⟩ := fillLoop_noRepeat s fuel _ _ _ k3 pwdF k4 hF
    hnd1 havailNodup havailDisj havailBig
  have hlenF' : pwdF.length = targetLen o := by
    rw [hlenF]
    omega
  have hsomeF : ∀ x ∈ pwdF, x.isSome = true := by
    obtain ⟨t, ht1, ht2⟩ := fillLoop_entries true s fuel _ _ _ k3 pwdF k4 hF
    rw [ht1]
    intro x hx
    rcases List.mem_append.mp hx with hx' | hx'
    · exact hsome1 x hx'
    · obtain ⟨c, rfl, -⟩ := ht2 x hx'
      rfl
  -- final shuffle and join
  rcases hfin with ⟨hb, h1lt, f, rest, restSh, k5, hpf, hsh, hout⟩ |
    ⟨hb, pwdSh, k5, hsh, hout⟩
  · have hperm := secureShuffleArray_perm s fuel none rest k4 restSh k5 hsh
    have hfSome : f.isSome = true := hsomeF f (by
      rw [hpf]
      exact List.mem_cons_self _ _)
    obtain ⟨c0, rfl⟩ := Option.isSome_iff_exists.mp hfSome
    have hrestSome : ∀ x ∈ restSh, x.isSome = true := fun x hx =>
      hsomeF x (by
        rw [hpf]
        exact List.mem_cons_of_mem _ (hperm.mem_iff.mp hx))
    have hrestNodup : restSh.Nodup := by
      rw [hpf] at hndF
      exact hperm.nodup_iff.mpr (List.nodup_cons.mp hndF).2
    have hc0notin : some c0 ∉ restSh := by
      rw [hpf] at hndF
      intro hmem
      exact (List.nodup_cons.mp hndF).1 (hperm.mem_iff.mp hmem)
    have houtred : out = c0 :: jsJoin restSh := by
      rw [hout]
      rfl
    constructor
    · rw [houtred]
      rw [List.nodup_cons]
      refine ⟨?_, jsJoin_nodup restSh hrestNodup⟩
      intro hmem
      exact hc0notin ((mem_jsJoin restSh c0).mp hmem)
    · rw [houtred]
      simp only [List.length_cons]
      rw [jsJoin_length restSh hrestSome]
      have hrlen : restSh.length = rest.length := hperm.length_eq
      have hplen : pwdF.length = rest.length + 1 := by
        rw [hpf]
        simp
      rw [← htarget, ← hlenF']
      omega
  · have hperm := secureShuffleArray_perm s fuel none pwdF k4 pwdSh k5 hsh
    have hshSome : ∀ x ∈ pwdSh, x.isSome = true := fun x hx =>
      hsomeF x (hperm.mem_iff.mp hx)
    have hshNodup : pwdSh.Nodup := hperm.nodup_iff.mpr hndF
    constructor
    · rw [hout]
      exact jsJoin_nodup pwdSh hshNodup
    · rw [hout, jsJoin_length pwdSh hshSome, hperm.length_eq, hlenF', htarget]

/-- Configuration for the C3 witness: `noRepeating`, numbers only,
length 4. -/
def cfgNoRepeat : PwOpts :=
  ⟨4, false, false, true, false, false, false, none, 0, 0, false, true⟩

/-- Witness for C3 at a concrete run: the output `1230` has four distinct
characters and length `min 4 10 = 4`. -/
theorem claim3_norepeating_witness :
    (['1', '2', '3', '0'] : List Char).Nodup ∧
      (['1', '2', '3', '0'] : List Char).length =
        min cfgNoRepeat.length (charPool cfgNoRepeat).length :=
  claim3_norepeating cfgNoRepeat zeroStream 1 0 rfl (by decide) (by decide)
    (by decide) ['1', '2', '3', '0'] 7 (by decide)

/-- Capitalization modes of `generatePassphrase` (`none` / `first` / `all`;
source default `first`). -/
inductive CapMode
  | noCap
  | first
  | allCaps
deriving DecidableEq

/-- Options of `generatePassphrase` (defaults: 4 words, hyphen separator,
first-letter capitalization, no number). -/
structure PpOpts where
  wordCount : ℕ
  separator : List Char
  capitalize : CapMode
  includeNumber : Bool

/-- Word transform of the `capitalize` option: `first` is
`word.charAt(0).toUpperCase() + word.slice(1)`, `all` is
`word.toUpperCase()`.  JS `toUpperCase` agrees with `Char.toUpper` on the
ASCII words of the embedded list. -/
def capWord : CapMode → List Char → List Char
  | .noCap, w => w
  | .first, [] => []
  | .first, c :: cs => c.toUpper :: cs
  | .allCaps, w => w.map Char.toUpper

/-- Auxiliary decimal rendering: most-significant digit first; the fuel
argument only bounds the recursion depth (`n` itself is always enough). -/
def digitsAux : ℕ → ℕ → List Char
  | 0, _ => []
  | fuel + 1, n =>
    if n = 0 then []
    else digitsAux fuel (n / 10) ++ [Char.ofNat (48 + n % 10)]

/-- Decimal digit characters of JS `n.toString()`. -/
def digitsChars (n : ℕ) : List Char :=
  if n = 0 then ['0'] else digitsAux n n

/-- JS `Array.prototype.join(sep)`. -/
def joinSep (sep : List Char) : List (List Char) → List Char
  | [] => []
  | [w] => w
  | w :: ws => w ++ sep ++ joinSep sep ws

/-- Modelled from the spec: split a text at every occurrence of a separator
character (JS `String.prototype.split` with a one-character separator);
used by the inverse parse of the delimited export, and as the factorization
device for separator-joined outputs. -/
def splitSep (c : Char) : List Char → List (List Char)
  | [] => [[]]
  | x :: rest =>
    if x = c then [] :: splitSep c rest
    else
      match splitSep c rest with
      | [] => [[x]]
      | l :: ls => (x :: l) :: ls

/-- The word-drawing loop of `generatePassphrase`: `wordCount` uniform draws
from the wordlist, with replacement. -/
def drawWords (wl : List (List Char)) (s : ℕ → ℕ) (fuel : ℕ) :
    ℕ → ℕ → Option (List (List Char) × ℕ)
  | 0, k => some ([], k)
  | n + 1, k =>
    match getSecureRandomInt (wl.length : ℤ) s fuel k with
    | none => none
    | some (i, kk) =>
      match drawWords wl s fuel n kk with
      | none => none
      | some (ws, kf) => some (wl.getD i [] :: ws, kf)

/-- The sentinel string `error-loading-wordlist` returned when the wordlist
resource is missing. -/
def SENTINEL : List Char :=
  ['e','r','r','o','r','-','l','o','a','d','i','n','g','-',
   'w','o','r','d','l','i','s','t']

/-- Embedding of `generatePassphrase`.  The wordlist is the injected
`EFF_WORDLIST` resource; `[]` stands for a missing or empty list (the
source checks `typeof EFF_WORDLIST === 'undefined' || length === 0` and
returns the sentinel).  Words are drawn with replacement, capitalized, a
0–99 number is spliced at a uniformly drawn position when `includeNumber`,
and the tokens are joined with the separator. -/
def generatePassphrase (wl : List (List Char)) (o : PpOpts) (s : ℕ → ℕ)
    (fuel k : ℕ) : Option (List Char × ℕ) :=
  if wl.length = 0 then some (SENTINEL, k)
  else
    match drawWords wl s fuel o.wordCount k with
    | none => none
    | some (ws, k1) =>
      if o.includeNumber then
        match getSecureRandomInt (((ws.map (capWord o.capitalize)).length : ℤ)
            + 1) s fuel k1 with
        | none => none
        | some (pos, k2) =>
          match getSecureRandomInt 100 s fuel k2 with
          | none => none
          | some (num, k3) =>
            some (joinSep o.separator ((ws.map (capWord o.capitalize)).insertIdx
              pos (digitsChars num)), k3)
      else some (joinSep o.separator (ws.map (capWord o.capitalize)), k1)

/-- The header row `Index,Password` of `toCSV`. -/
def CSV_HEADER : List Char :=
  ['I','n','d','e','x',',','P','a','s','s','w','o','r','d']

/-- One row of the export, the template `${i + 1},"${pwd}"` of `toCSV`
(at 0-based position `i`). -/
def csvRow (i : ℕ) (pwd : List Char) : List Char :=
  digitsChars (i + 1) ++ ',' :: '"' :: (pwd ++ ['"'])

/-- The rows of the CSV body, indices printed 1-based. -/
def csvRows : ℕ → List (List Char) → List (List Char)
  | _, [] => []
  | i, p :: ps => csvRow i p :: csvRows (i + 1) ps

/-- Embedding of `toCSV`: the header and the quoted rows joined by
newlines. -/
def toCSV (pwds : List (List Char)) : List Char :=
  joinSep ['\n'] (CSV_HEADER :: csvRows 0 pwds)

/-- Modelled from the spec: the quoted-field reader of the inverse parse —
consume until the closing quote, unescaping doubled quotes (RFC-4180
semantics); text after the closing quote, and an unterminated field, are
handled leniently. -/
def unquote : List Char → List Char
  | [] => []
  | c :: rest =>
    if c = '"' then
      match rest with
      | '"' :: rest2 => '"' :: unquote rest2
      | _ => []
    else c :: unquote rest

/-- Modelled from the spec: parse one `index,"value"` row of the export —
skip to the first comma, then read the quoted value (or take the raw rest
for an unquoted field). -/
def parseRow (r : List Char) : List Char :=
  match r.dropWhile (fun c => c ≠ ',') with
  | [] => []
  | [_] => []
  | c1 :: c2 :: rest =>
    if c1 = ',' then (if c2 = '"' then unquote rest else c2 :: rest) else []

/-- Modelled from the spec: the inverse parse of the delimited export —
split into lines, drop the header row, and parse each remaining row's
value column. -/
def parseCSV (text : List Char) : List (List Char) :=
  match splitSep '\n' text with
  | [] => []
  | _ :: rows => rows.map parseRow

/- Char.ofNat on a valid code point reads back as that code point. -/
theorem char_ofNat_toNat (n : ℕ) (h : n.isValidChar) :
    (Char.ofNat n).toNat = n := by
  simp [Char.ofNat, h, Char.ofNatAux, Char.toNat, UInt32.toNat,
    BitVec.toNat_ofNatLt]

/- No character uppercases to the lowercase letter `l`. -/
theorem toUpper_ne_l (c : Char) : Char.toUpper c ≠ 'l' := by
  intro h
  have hv : (Char.toUpper c).toNat = 108 := by
    rw [h]
    decide
  unfold Char.toUpper at hv
  by_cases hc : 97 ≤ c.toNat ∧ c.toNat ≤ 122
  · rw [if_pos ⟨hc.1, hc.2⟩] at hv
    have hval : (c.toNat - 32).isValidChar := Or.inl (by omega)
    rw [char_ofNat_toNat _ hval] at hv
    omega
  · rw [if_neg hc] at hv
    exact hc (by omega)

/- Only the hyphen uppercases to a hyphen. -/
theorem toUpper_eq_dash (c : Char) (h : Char.toUpper c = '-') : c = '-' := by
  have hv : (Char.toUpper c).toNat = 45 := by
    rw [h]
    decide
  unfold Char.toUpper at hv
  by_cases hc : 97 ≤ c.toNat ∧ c.toNat ≤ 122
  · rw [if_pos ⟨hc.1, hc.2⟩] at hv
    have hval : (c.toNat - 32).isValidChar := Or.inl (by omega)
    rw [char_ofNat_toNat _ hval] at hv
    omega
  · rw [if_neg hc] at hv
    have hcn : c = Char.ofNat 45 := by
      rw [← Char.ofNat_toNat c, hv]
    simpa using hcn

/- Characters of the auxiliary decimal rendering are digits (code 48–57). -/
theorem digitsAux_range :
    ∀ (fuel n : ℕ), ∀ c ∈ digitsAux fuel n, 48 ≤ c.toNat ∧ c.toNat ≤ 57 := by
  intro fuel
  induction fuel with
  | zero =>
    intro n c hc
    simp [digitsAux] at hc
  | succ m ih =>
    intro n c hc
    simp only [digitsAux] at hc
    split_ifs at hc with h0
    · simp at hc
    · rcases List.mem_append.mp hc with hm | hm
      · exact ih (n / 10) c hm
      · rw [List.mem_singleton] at hm
        have hval : (48 + n % 10).isValidChar := Or.inl (by omega)
        rw [hm, char_ofNat_toNat _ hval]
        have := Nat.mod_lt n (show 0 < 10 by omega)
        omega

/- Characters of a decimal rendering are decimal digits (code 48–57). -/
theorem digitsChars_range (n : ℕ) :
    ∀ c ∈ digitsChars n, 48 ≤ c.toNat ∧ c.toNat ≤ 57 := by
  intro c hc
  unfold digitsChars at hc
  split_ifs at hc with h0
  · rw [List.mem_singleton] at hc
    rw [hc]
    decide
  · exact digitsAux_range n n c hc

/- Splitting after a leading separator-free chunk. -/
theorem splitSep_append (c : Char) :
    ∀ (l r : List Char), c ∉ l →
      splitSep c (l ++ c :: r) = l :: splitSep c r := by
  intro l
  induction l with
  | nil =>
    intro r h
    simp [splitSep]
  | cons x t ih =>
    intro r h
    rw [List.cons_append]
    have hx : ¬ x = c := fun he => h (by rw [he]; exact List.mem_cons_self c t)
    simp only [splitSep, if_neg hx]
    rw [ih r (fun hm => h (List.mem_cons_of_mem _ hm))]

/- A separator-free text splits into itself. -/
theorem splitSep_no_sep (c : Char) :
    ∀ (l : List Char), c ∉ l → splitSep c l = [l] := by
  intro l
  induction l with
  | nil =>
    intro h
    rfl
  | cons x t ih =>
    intro h
    have hx : ¬ x = c := fun he => h (by rw [he]; exact List.mem_cons_self c t)
    simp only [splitSep, if_neg hx]
    rw [ih (fun hm => h (List.mem_cons_of_mem _ hm))]

/- Splitting is a left inverse of joining for separator-free chunks. -/
theorem splitSep_joinSep (c : Char) :
    ∀ (ts : List (List Char)), ts ≠ [] → (∀ t ∈ ts, c ∉ t) →
      splitSep c (joinSep [c] ts) = ts := by
  intro ts
  induction ts with
  | nil =>
    intro h
    exact absurd rfl h
  | cons w ws ih =>
    intro hne hfree
    cases ws with
    | nil =>
      exact splitSep_no_sep c w (hfree w (List.mem_cons_self _ _))
    | cons w2 ws' =>
      have hred : joinSep [c] (w :: w2 :: ws') =
          w ++ c :: joinSep [c] (w2 :: ws') := by
        show w ++ [c] ++ joinSep [c] (w2 :: ws') = _
        rw [List.append_assoc]
        rfl
      rw [hred, splitSep_append c w _ (hfree w (List.mem_cons_self _ _))]
      rw [ih (by simp) (fun t ht => hfree t (List.mem_cons_of_mem _ ht))]

/- Every character of a join comes from a token or the separator. -/
theorem mem_joinSep (sep : List Char) :
    ∀ (ts : List (List Char)) (x : Char), x ∈ joinSep sep ts →
      (∃ t ∈ ts, x ∈ t) ∨ x ∈ sep := by
  intro ts
  induction ts with
  | nil =>
    intro x hx
    simp [joinSep] at hx
  | cons w ws ih =>
    intro x hx
    cases ws with
    | nil =>
      exact Or.inl ⟨w, List.mem_cons_self _ _, hx⟩
    | cons w2 ws' =>
      have hred : joinSep sep (w :: w2 :: ws') =
          w ++ sep ++ joinSep sep (w2 :: ws') := rfl
      rw [hred] at hx
      rcases List.mem_append.mp hx with hx' | hx'
      · rcases List.mem_append.mp hx' with hx'' | hx''
        · exact Or.inl ⟨w, List.mem_cons_self _ _, hx''⟩
        · exact Or.inr hx''
      · rcases ih x hx' with ⟨t, ht, hxt⟩ | hsep
        · exact Or.inl ⟨t, List.mem_cons_of_mem _ ht, hxt⟩
        · exact Or.inr hsep

/- One step of the quoted-field reader over a non-quote character. -/
theorem unquote_cons_ne (x : Char) (rest : List Char) (hx : ¬ x = '"') :
    unquote (x :: rest) = x :: unquote rest := by
  cases rest with
  | nil =>
    have hred : unquote [x] = if x = '"' then [] else x :: unquote [] := rfl
    rw [hred, if_neg hx]
  | cons y t =>
    by_cases hy : y = '"'
    · subst hy
      have hred : unquote (x :: '"' :: t) =
          if x = '"' then '"' :: unquote t else x :: unquote ('"' :: t) := rfl
      rw [hred, if_neg hx]
    · rw [unquote, if_neg hx]
      intro rest2 hcontra
      injection hcontra with h1 h2
      exact hy h1

/- Reading a quote-free value out of its quoted field. -/
theorem unquote_append (p : List Char) (h : ('"' : Char) ∉ p) :
    unquote (p ++ ['"']) = p := by
  induction p with
  | nil => rfl
  | cons x t ih =>
    have hx : ¬ x = '"' := fun he => h (by rw [he]; exact List.mem_cons_self _ t)
    rw [List.cons_append, unquote_cons_ne x _ hx]
    rw [ih (fun hm => h (List.mem_cons_of_mem _ hm))]

/- Drawn words come from the wordlist (or are the JS `undefined` read off an
empty list, impossible at the call site). -/
theorem drawWords_mem (wl : List (List Char)) (s : ℕ → ℕ) (fuel : ℕ) :
    ∀ n k ws kf, drawWords wl s fuel n k = some (ws, kf) →
      ∀ w ∈ ws, w ∈ wl ∨ wl = [] := by
  intro n
  induction n with
  | zero =>
    intro k ws kf h w hw
    obtain ⟨rfl, rfl⟩ : ([] : List (List Char)) = ws ∧ k = kf := by
      simpa [drawWords] using h
    simp at hw
  | succ m ih =>
    intro k ws kf h w hw
    simp only [drawWords] at h
    cases hd : getSecureRandomInt (wl.length : ℤ) s fuel k with
    | none => rw [hd] at h; simp at h
    | some p =>
      rw [hd] at h
      obtain ⟨i, kk0⟩ := p
      dsimp only at h
      cases hr : drawWords wl s fuel m kk0 with
      | none => rw [hr] at h; simp at h
      | some q =>
        rw [hr] at h
        obtain ⟨ws0, kf0⟩ := q
        dsimp only at h
        obtain ⟨rfl, rfl⟩ : wl.getD i [] :: ws0 = ws ∧ kf0 = kf := by
          simpa using h
        rcases List.mem_cons.mp hw with rfl | hw'
        · cases hwl : wl with
          | nil => exact Or.inr rfl
          | cons a as =>
            left
            have hlen : 0 < wl.length := by rw [hwl]; simp
            have hi := getSecureRandomInt_lt (wl.length : ℤ) s fuel k
              (by exact_mod_cast hlen) i kk0 hd
            rw [Int.toNat_natCast] at hi
            rw [← hwl]
            rw [List.getD_eq_getElem wl [] hi]
            exact List.getElem_mem hi
        · exact ih kk0 ws0 kf0 hr w hw'

/-- C8 counterexample: a password containing a double quote is exported
unescaped (`1,"a"b"`), so the inverse parse reads the field as `a` — the
round-trip loses the value. -/
theorem claim8_counterexample :
    parseCSV (toCSV [['a', '"', 'b']]) = [['a']] ∧
    ([['a']] : List (List Char)) ≠ [['a', '"', 'b']] := by decide

/- Parsing one well-formed row recovers its value. -/
theorem parseRow_csvRow (i : ℕ) (p : List Char) (hp : ('"' : Char) ∉ p) :
    parseRow (csvRow i p) = p := by
  unfold parseRow csvRow
  have hdnil : (digitsChars (i + 1)).dropWhile (fun c => c ≠ ',') = [] := by
    rw [List.dropWhile_eq_nil_iff]
    intro x hx
    have := digitsChars_range (i + 1) x hx
    have hcomma : (',' : Char).toNat = 44 := by decide
    simp only [decide_eq_true_eq]
    intro he
    rw [he] at this
    omega
  have hdrop : (digitsChars (i + 1) ++ ',' :: '"' :: (p ++ ['"'])).dropWhile
      (fun c => c ≠ ',') = ',' :: '"' :: (p ++ ['"']) := by
    rw [List.dropWhile_append, hdnil]
    simp [List.dropWhile_cons]
  rw [hdrop]
  dsimp only
  rw [if_pos rfl, if_pos rfl]
  exact unquote_append p hp

/- Rows of the export contain no newline when the values do not. -/
theorem csvRows_no_newline :
    ∀ (ps : List (List Char)) (i : ℕ), (∀ p ∈ ps, ('\n' : Char) ∉ p) →
      ∀ r ∈ csvRows i ps, ('\n' : Char) ∉ r := by
  intro ps
  induction ps with
  | nil =>
    intro i hps r hr
    simp [csvRows] at hr
  | cons p ps' ih =>
    intro i hps r hr
    simp only [csvRows] at hr
    rcases List.mem_cons.mp hr with rfl | hr'
    · unfold csvRow
      intro hmem
      rcases List.mem_append.mp hmem with hm | hm
      · have := digitsChars_range (i + 1) _ hm
        have hval : ('\n' : Char).toNat = 10 := by decide
        omega
      · rcases List.mem_cons.mp hm with he | hm2
        · exact absurd he (by decide)
        · rcases List.mem_cons.mp hm2 with he | hm3
          · exact absurd he (by decide)
          · rcases List.mem_append.mp hm3 with hm4 | hm4
            · exact hps p (List.mem_cons_self _ _) hm4
            · rw [List.mem_singleton] at hm4
              exact absurd hm4 (by decide)
    · exact ih (i + 1) (fun q hq => hps q (List.mem_cons_of_mem _ hq)) r hr'

/-- C8 (amended): the export round-trips exactly — header plus one
`index,"value"` row per password, parsed back, yields the original sequence
in order — for every sequence of passwords that contain no double quote and
no newline (every password generated without a quote- or newline-bearing
`customSymbols` qualifies; commas are handled by the quoting).  Values
containing a double quote are exported unescaped and do not survive the
round-trip, as the counterexample shows. -/
theorem claim8_roundtrip (pwds : List (List Char))
    (hq : ∀ p ∈ pwds, ('"' : Char) ∉ p ∧ ('\n' : Char) ∉ p) :
    parseCSV (toCSV pwds) = pwds := by
  unfold parseCSV toCSV
  have hlinesne : (CSV_HEADER :: csvRows 0 pwds) ≠ [] := by simp
  have hfree : ∀ t ∈ CSV_HEADER :: csvRows 0 pwds, ('\n' : Char) ∉ t := by
    intro t ht
    rcases List.mem_cons.mp ht with rfl | ht'
    · decide
    · exact csvRows_no_newline pwds 0 (fun p hp => (hq p hp).2) t ht'
  rw [splitSep_joinSep ('\n' : Char) _ hlinesne hfree]
  dsimp only
  have hmap : ∀ (ps : List (List Char)) (i : ℕ),
      (∀ p ∈ ps, ('"' : Char) ∉ p) → (csvRows i ps).map parseRow = ps := by
    intro ps
    induction ps with
    | nil =>
      intro i h
      rfl
    | cons p ps' ih =>
      intro i h
      simp only [csvRows, List.map_cons]
      rw [parseRow_csvRow i p (h p (List.mem_cons_self _ _)),
        ih (i + 1) (fun q hq' => h q (List.mem_cons_of_mem _ hq'))]
  exact hmap pwds 0 (fun p hp => (hq p hp).1)

/-- Witness for C8 at a concrete quote-free sequence. -/
theorem claim8_roundtrip_witness :
    parseCSV (toCSV [['a'], ['b', 'c']]) = [['a'], ['b', 'c']] :=
  claim8_roundtrip [['a'], ['b', 'c']] (by decide)

/- Capitalization cannot introduce a hyphen. -/
theorem capWord_no_dash (m : CapMode) (w : List Char)
    (h : ('-' : Char) ∉ w) : ('-' : Char) ∉ capWord m w := by
  cases m with
  | noCap => exact h
  | first =>
    cases w with
    | nil => simp [capWord]
    | cons c cs =>
      intro hmem
      rcases List.mem_cons.mp hmem with he | hm
      · refine h ?_
        rw [toUpper_eq_dash c he.symm]
        exact List.mem_cons_self _ _
      · exact h (List.mem_cons_of_mem _ hm)
  | allCaps =>
    intro hmem
    simp only [capWord, List.mem_map] at hmem
    obtain ⟨c, hc, he⟩ := hmem
    have hcd := toUpper_eq_dash c he
    rw [hcd] at hc
    exact h hc

/- Capitalization cannot produce the word `loading` except from itself
uncapitalized. -/
theorem capWord_ne_loading (m : CapMode) (w : List Char)
    (hw : w ≠ (['l','o','a','d','i','n','g'] : List Char)) :
    capWord m w ≠ (['l','o','a','d','i','n','g'] : List Char) := by
  cases m with
  | noCap => exact hw
  | first =>
    cases w with
    | nil => simp [capWord]
    | cons c cs =>
      intro he
      have hred : capWord CapMode.first (c :: cs) = c.toUpper :: cs := rfl
      rw [hred] at he
      injection he with h1 h2
      exact toUpper_ne_l c h1
  | allCaps =>
    cases w with
    | nil => simp [capWord]
    | cons c cs =>
      intro he
      have hred : capWord CapMode.allCaps (c :: cs) =
          c.toUpper :: cs.map Char.toUpper := rfl
      rw [hred] at he
      injection he with h1 h2
      exact toUpper_ne_l c h1

/- A decimal rendering is never the word `loading`. -/
theorem digitsChars_ne_loading (n : ℕ) :
    digitsChars n ≠ (['l','o','a','d','i','n','g'] : List Char) := by
  intro he
  have hl : ('l' : Char) ∈ digitsChars n := by
    rw [he]
    exact List.mem_cons_self _ _
  have := digitsChars_range n 'l' hl
  have hlv : ('l' : Char).toNat = 108 := by decide
  omega

/- A separator-joined token list whose tokens are hyphen-free and never the
word `loading` cannot spell the sentinel, for any of the valid separators. -/
theorem joinSep_ne_sentinel (sep : List Char) (ts : List (List Char))
    (hsep : sep = ['-'] ∨ sep = ['_'] ∨ sep = [' '] ∨
      (∃ d : Char, sep = [d] ∧ 48 ≤ d.toNat ∧ d.toNat ≤ 57))
    (htok : ∀ t ∈ ts, ('-' : Char) ∉ t ∧
      t ≠ (['l','o','a','d','i','n','g'] : List Char)) :
    joinSep sep ts ≠ SENTINEL := by
  intro hEq
  rcases hsep with hs | hs | hs | ⟨d, hs, hd1, hd2⟩
  · subst hs
    cases ts with
    | nil => exact absurd hEq (by decide)
    | cons t0 ts' =>
      have hsplit := splitSep_joinSep ('-' : Char) (t0 :: ts') (by simp)
        (fun t ht => (htok t ht).1)
      rw [hEq] at hsplit
      have hsent : splitSep ('-' : Char) SENTINEL =
          [['e','r','r','o','r'], ['l','o','a','d','i','n','g'],
           ['w','o','r','d','l','i','s','t']] := by decide
      rw [hsent] at hsplit
      have hmem : (['l','o','a','d','i','n','g'] : List Char) ∈ t0 :: ts' := by
        rw [← hsplit]
        simp
      exact (htok _ hmem).2 rfl
  · subst hs
    have hdash : ('-' : Char) ∈ joinSep ['_'] ts := by
      rw [hEq]
      decide
    rcases mem_joinSep _ ts '-' hdash with ⟨t, ht, hm⟩ | hm
    · exact (htok t ht).1 hm
    · exact absurd hm (by decide)
  · subst hs
    have hdash : ('-' : Char) ∈ joinSep [' '] ts := by
      rw [hEq]
      decide
    rcases mem_joinSep _ ts '-' hdash with ⟨t, ht, hm⟩ | hm
    · exact (htok t ht).1 hm
    · exact absurd hm (by decide)
  · subst hs
    have hdash : ('-' : Char) ∈ joinSep [d] ts := by
      rw [hEq]
      decide
    rcases mem_joinSep _ ts '-' hdash with ⟨t, ht, hm⟩ | hm
    · exact (htok t ht).1 hm
    · rw [List.mem_singleton] at hm
      have hdv : ('-' : Char).toNat = 45 := by decide
      rw [← hm] at hd1 hd2
      omega

/-- C7: a missing or empty wordlist makes `generatePassphrase` return the
sentinel `error-loading-wordlist` (with the cursor untouched) for every
configuration, without failing; and with the wordlist present the sentinel
is never returned, for every valid separator, provided the list — like the
embedded one, whose words are lowercase alphabetic — has no hyphen inside a
word and does not contain the word `loading` itself. -/
theorem claim7_missing_wordlist :
    (∀ (o : PpOpts) (s : ℕ → ℕ) (fuel k : ℕ),
      generatePassphrase [] o s fuel k = some (SENTINEL, k)) ∧
    (∀ (wl : List (List Char)) (o : PpOpts) (s : ℕ → ℕ) (fuel k : ℕ)
      (out : List Char) (kk : ℕ),
      wl ≠ [] →
      (∀ w ∈ wl, ('-' : Char) ∉ w) →
      (['l','o','a','d','i','n','g'] : List Char) ∉ wl →
      (o.separator = ['-'] ∨ o.separator = ['_'] ∨ o.separator = [' '] ∨
        (∃ d : Char, o.separator = [d] ∧ 48 ≤ d.toNat ∧ d.toNat ≤ 57)) →
      generatePassphrase wl o s fuel k = some (out, kk) →
      out ≠ SENTINEL) := by
  constructor
  · intro o s fuel k
    rfl
  · intro wl o s fuel k out kk hne hfree hload hsep h
    unfold generatePassphrase at h
    rw [if_neg (fun hc => hne (List.length_eq_zero.mp hc))] at h
    cases hw : drawWords wl s fuel o.wordCount k with
    | none => rw [hw] at h; simp at h
    | some pw =>
      rw [hw] at h
      obtain ⟨ws, k1⟩ := pw
      dsimp only at h
      have hwmem := drawWords_mem wl s fuel o.wordCount k ws k1 hw
      have htokcap : ∀ t ∈ ws.map (capWord o.capitalize),
          ('-' : Char) ∉ t ∧
            t ≠ (['l','o','a','d','i','n','g'] : List Char) := by
        intro t ht
        rw [List.mem_map] at ht
        obtain ⟨w, hwin, rfl⟩ := ht
        have hwwl : w ∈ wl := by
          rcases hwmem w hwin with hm | hm
          · exact hm
          · exact absurd hm hne
        constructor
        · exact capWord_no_dash o.capitalize w (hfree w hwwl)
        · exact capWord_ne_loading o.capitalize w (fun he => hload (he ▸ hwwl))
      by_cases hinc : o.includeNumber = true
      · rw [if_pos hinc] at h
        cases hpos : getSecureRandomInt
            (((ws.map (capWord o.capitalize)).length : ℤ) + 1) s fuel k1 with
        | none => rw [hpos] at h; simp at h
        | some pp =>
          rw [hpos] at h
          obtain ⟨pos, k2⟩ := pp
          dsimp only at h
          cases hnum : getSecureRandomInt 100 s fuel k2 with
          | none => rw [hnum] at h; simp at h
          | some pn =>
            rw [hnum] at h
            obtain ⟨num, k3⟩ := pn
            dsimp only at h
            obtain ⟨rfl, rfl⟩ : joinSep o.separator
                ((ws.map (capWord o.capitalize)).insertIdx pos
                  (digitsChars num)) = out ∧ k3 = kk := by simpa using h
            have hposle : pos ≤ (ws.map (capWord o.capitalize)).length := by
              have hlt := getSecureRandomInt_lt
                (((ws.map (capWord o.capitalize)).length : ℤ) + 1) s fuel k1
                (by omega) pos k2 hpos
              omega
            refine joinSep_ne_sentinel o.separator _ hsep ?_
            intro t ht
            rcases (List.mem_insertIdx hposle).mp ht with rfl | ht'
            · constructor
              · intro hm
                have := digitsChars_range num '-' hm
                have hdv : ('-' : Char).toNat = 45 := by decide
                omega
              · exact digitsChars_ne_loading num
            · exact htokcap t ht'
      · rw [if_neg hinc] at h
        obtain ⟨rfl, rfl⟩ : joinSep o.separator (ws.map (capWord o.capitalize))
            = out ∧ k1 = kk := by simpa using h
        exact joinSep_ne_sentinel o.separator _ hsep htokcap

/-- Sample wordlist for the C7 witness. -/
def wlSample : List (List Char) := [['a', 'b']]

/-- Witness for C7 at a concrete run: two words drawn from a one-word list,
first-letter capitalization, hyphen separator — the output `Ab-Ab` is not
the sentinel. -/
theorem claim7_missing_wordlist_witness :
    (['A', 'b', '-', 'A', 'b'] : List Char) ≠ SENTINEL :=
  claim7_missing_wordlist.2 wlSample ⟨2, ['-'], CapMode.first, false⟩
    zeroStream 1 0 ['A', 'b', '-', 'A', 'b'] 2 (by decide) (by decide)
    (by decide) (Or.inl rfl) (by decide)

end PassGen
